import Mathlib

/-!
Verification development for the AudioRightsScanner repository.

The development shallowly embeds the two core source modules:

* yamnet_detector.py — frame-level music detection, coarse merging of active
  frames, boundary acceptance inside a coarse segment, and splitting a coarse
  segment at its boundaries;
* service.py — the probe & confirmation stitcher (identify_with_yamnet with
  its helpers _get_probe_points and the per-probe confirmed-segment update)
  and the fallback timeline segmenter (identify_with_timeline with
  _merge_segments).

Modelling conventions:

* Python floats are idealised as exact rationals (ℚ); Python round(x, 2)
  (round-half-to-even) is modelled exactly by round2 below.
* External numeric collaborators are inputs of the embedding: the classifier
  is represented by the per-frame score vectors it returns, the librosa
  change-signal of a coarse segment by a function from the segment to the
  combined signal, and the identification oracle by a function from a probe
  window to the parsed verdict (matched with track metadata, no match, or a
  protocol/API error verdict, exactly the three shapes _parse_result can
  yield).
* Python while-loops over rational counters are embedded with an explicit
  fuel argument; the fuel chosen by the wrappers is proved sufficient, so on
  every terminating input of the source loop the embedding agrees with it.
-/

/-- Round-half-to-even of a rational, the rounding used by Python round(). -/
def rhe (y : ℚ) : ℤ :=
  if y - Rat.floor y < 1/2 then Rat.floor y
  else if (1:ℚ)/2 < y - Rat.floor y then Rat.floor y + 1
  else if Rat.floor y % 2 = 0 then Rat.floor y else Rat.floor y + 1

/-- Python round(x, 2): round to two decimal places, half to even. -/
def round2 (x : ℚ) : ℚ := (rhe (x * 100) : ℚ) / 100

/-! ## Small executable helpers (Python built-ins) -/

/-- Lower-cased character list of a string (Python str.lower()). -/
def lowerChars (s : String) : List Char := s.toList.map Char.toLower

/-- needle begins hay (helper for Python substring containment). -/
def startsWithChars : List Char → List Char → Bool
  | _, [] => true
  | [], _ :: _ => false
  | a :: hay, b :: nee => (b = a) && startsWithChars hay nee

/-- Python substring containment: hasSubChars hay needle decides needle in hay. -/
def hasSubChars : List Char → List Char → Bool
  | [], nee => nee.isEmpty
  | a :: t, nee => startsWithChars (a :: t) nee || hasSubChars t nee

/-- Python max(iterable, default=d): the maximum of the list, d when empty. -/
def maxD (l : List ℚ) (d : ℚ) : ℚ :=
  match l with
  | [] => d
  | x :: xs => xs.foldl max x

/-- Stable insertion step of Python sorted(): the new element goes after
every existing element that is ≤ it. -/
def insertByLe {α : Type} (le : α → α → Bool) (a : α) : List α → List α
  | [] => [a]
  | b :: l => if le b a then b :: insertByLe le a l else a :: b :: l

/-- Python sorted()/list.sort(): stable ascending sort (any stable sort
computes the same list, so insertion sort is a faithful model). -/
def sortByLe {α : Type} (le : α → α → Bool) (l : List α) : List α :=
  l.foldl (fun acc x => insertByLe le x acc) []

/-- Fuel bound used to embed while-loops: a natural number that is at least
x, so a loop of at most x iterations terminates inside the fuel. -/
def fuelFor (x : ℚ) : ℕ := x.num.toNat + 1

theorem le_fuelFor (x : ℚ) : x ≤ (fuelFor x : ℚ) := by
  unfold fuelFor
  rcases le_or_lt 0 x with h | h
  · have hnum : (0:ℤ) ≤ x.num := Rat.num_nonneg.mpr h
    have h1 : x ≤ (x.num : ℚ) := by
      conv_lhs => rw [← Rat.num_div_den x]
      apply div_le_self
      · exact_mod_cast hnum
      · exact_mod_cast x.pos
    have h2 : (x.num : ℚ) ≤ ((x.num.toNat : ℤ) : ℚ) := by
      rw [Int.toNat_of_nonneg hnum]
    calc x ≤ (x.num : ℚ) := h1
      _ ≤ ((x.num.toNat : ℤ) : ℚ) := h2
      _ ≤ ((x.num.toNat + 1 : ℕ) : ℚ) := by push_cast; linarith
  · calc x ≤ 0 := le_of_lt h
      _ ≤ ((x.num.toNat + 1 : ℕ) : ℚ) := by positivity

/-! ## yamnet_detector.py — constants and detector state -/

/-- TFLITE_INPUT_LENGTH: samples per classifier window. -/
def TFLITE_INPUT_LENGTH : ℕ := 15600

/-- FRAME_DURATION = 0.975 seconds. -/
def FRAME_DURATION : ℚ := mkRat 975 1000

/-- FRAME_HOP = 0.4875 seconds. -/
def FRAME_HOP : ℚ := mkRat 4875 10000

/-- MUSIC_KEYWORDS from yamnet_detector.py. -/
def MUSIC_KEYWORDS : List String :=
  ["music", "song", "singing", "choir", "beat",
   "drum", "guitar", "piano", "violin", "flute",
   "instrument", "orchestra", "melody", "rhythm",
   "pop music", "rock music", "hip hop", "jazz",
   "electronic music", "background music", "soundtrack"]

/-- Configuration and loaded taxonomy of a YAMNetDetector instance.
The tflite interpreter itself is an external collaborator; the loaded
class-name table is the data the embedded functions read. -/
structure YAMNetDetector where
  class_names : List String
  confidence_threshold : ℚ
  background_music_threshold : ℚ
  min_segment_duration : ℚ
  merge_gap : ℚ

/-- music_class_ids as computed by load_model: indices of class names that
contain one of the MUSIC_KEYWORDS (case-insensitively). The Python set is
modelled as the sorted list of indices; every use below is
order-independent. -/
def music_class_ids (class_names : List String) : List ℕ :=
  (List.range class_names.length).filter
    (fun i => MUSIC_KEYWORDS.any
      (fun kw => hasSubChars (lowerChars (class_names.getD i "")) kw.toList))

/-- np.argmax: index of the first maximal entry, 0 for an empty vector. -/
def argmaxIdx (l : List ℚ) : ℕ :=
  (l.enum.foldl (fun best iv => if best.2 < iv.2 then iv else best)
    (0, l.headD 0)).1

/-- Per-frame music score: max of the scores at the music class indices that
are present in the vector, 0.0 when that set is empty
(yamnet_detector.py detect_music_frames, the max(...) call). -/
def music_score (class_names : List String) (scores : List ℚ) : ℚ :=
  maxD (((music_class_ids class_names).filter
          (fun cid => cid < scores.length)).map
        (fun cid => scores.getD cid 0)) 0

/-- top_name: class name of the argmax score, "unknown" when out of range. -/
def top_name (class_names : List String) (scores : List ℚ) : String :=
  class_names.getD (argmaxIdx scores) "unknown"

/-- is_clear_music for one frame. -/
def is_clear_music (D : YAMNetDetector) (scores : List ℚ) : Prop :=
  D.confidence_threshold ≤ music_score D.class_names scores

/-- is_bgm_under_speech for one frame. -/
def is_bgm_under_speech (D : YAMNetDetector) (scores : List ℚ) : Prop :=
  hasSubChars (lowerChars (top_name D.class_names scores)) "speech".toList = true ∧
  D.background_music_threshold ≤ music_score D.class_names scores

instance (D : YAMNetDetector) (scores : List ℚ) :
    Decidable (is_clear_music D scores) := by
  unfold is_clear_music; infer_instance

instance (D : YAMNetDetector) (scores : List ℚ) :
    Decidable (is_bgm_under_speech D scores) := by
  unfold is_bgm_under_speech; infer_instance

/-- The frame loop of detect_music_frames. The classifier is external, so the
waveform is represented by the list of score vectors the classifier returns
for the successive windows (one entry per iteration of the while loop);
frame_idx counts from the given index. Emits (start, start + FRAME_DURATION,
music_score) for the frames that pass the activation test. -/
def detect_frames_from (D : YAMNetDetector) :
    ℕ → List (List ℚ) → List (ℚ × ℚ × ℚ)
  | _, [] => []
  | frame_idx, scores :: rest =>
    let ms := music_score D.class_names scores
    if is_clear_music D scores ∨ is_bgm_under_speech D scores then
      ((frame_idx : ℚ) * FRAME_HOP, (frame_idx : ℚ) * FRAME_HOP + FRAME_DURATION, ms)
        :: detect_frames_from D (frame_idx + 1) rest
    else
      detect_frames_from D (frame_idx + 1) rest

/-- detect_music_frames: the loop starts at frame_idx = 0. -/
def detect_music_frames (D : YAMNetDetector) (frameScores : List (List ℚ)) :
    List (ℚ × ℚ × ℚ) :=
  detect_frames_from D 0 frameScores

/-! ## yamnet_detector.py — _merge_frames_to_segments -/

/-- The scan of _merge_frames_to_segments with the running interval
(cur_start, cur_end): merge a frame into the running interval when its start
is within merge_gap of cur_end, otherwise emit the interval and restart. -/
def merge_scan (merge_gap : ℚ) (cur_start cur_end : ℚ) :
    List (ℚ × ℚ × ℚ) → List (ℚ × ℚ)
  | [] => [(cur_start, cur_end)]
  | (s, e, _) :: rest =>
    if s - cur_end ≤ merge_gap then
      merge_scan merge_gap cur_start (max cur_end e) rest
    else
      (cur_start, cur_end) :: merge_scan merge_gap s e rest

/-- _merge_frames_to_segments: scan, then drop intervals shorter than
min_segment_duration. -/
def _merge_frames_to_segments (D : YAMNetDetector)
    (music_frames : List (ℚ × ℚ × ℚ)) : List (ℚ × ℚ) :=
  match music_frames with
  | [] => []
  | (s, e, _) :: rest =>
    (merge_scan D.merge_gap s e rest).filter
      (fun se => D.min_segment_duration ≤ se.2 - se.1)

/-! ## yamnet_detector.py — find_boundaries_in_segment -/

/-- hop / sr of the boundary analysis: 512 / 22050 seconds per signal step. -/
def hop_duration : ℚ := mkRat 512 22050

/-- The acceptance loop of find_boundaries_in_segment over the combined
change signal: a candidate index i (absolute time seg_start + i *
hop_duration) is accepted when its change value reaches chroma_threshold and
its absolute time is at least min_gap past the last accepted time last_b.
Returned boundaries are rounded to 2 decimals; last_b keeps the raw time. -/
def accept_boundaries (seg_start chroma_threshold min_gap : ℚ) :
    ℕ → ℚ → List ℚ → List ℚ
  | _, _, [] => []
  | i, last_b, change :: rest =>
    if chroma_threshold ≤ change then
      if min_gap ≤ seg_start + (i : ℚ) * hop_duration - last_b then
        round2 (seg_start + (i : ℚ) * hop_duration) ::
          accept_boundaries seg_start chroma_threshold min_gap (i + 1)
            (seg_start + (i : ℚ) * hop_duration) rest
      else
        accept_boundaries seg_start chroma_threshold min_gap (i + 1) last_b rest
    else
      accept_boundaries seg_start chroma_threshold min_gap (i + 1) last_b rest

/-- find_boundaries_in_segment. The librosa feature extraction is an external
numeric collaborator: the combined, normalized change signal computed from
the chroma and MFCC features of the loaded audio is the input. The audio
shorter-than-2-seconds guard (len(y) < sr * 2) is idealised as a guard on
the segment duration; last_b starts at -min_gap. -/
def find_boundaries_in_segment (seg_start seg_end : ℚ) (combined : List ℚ)
    (chroma_threshold : ℚ) (min_gap_between_boundaries : ℚ) : List ℚ :=
  if seg_end - seg_start < 2 then []
  else accept_boundaries seg_start chroma_threshold min_gap_between_boundaries
    0 (-min_gap_between_boundaries) combined

/-! ## yamnet_detector.py — split_segment_at_boundaries -/

/-- Consecutive pairs of a list: the comprehension
[(points[i], points[i+1]) for i in range(len(points) - 1)]. -/
def consecPairs : List ℚ → List (ℚ × ℚ)
  | a :: b :: rest => (a, b) :: consecPairs (b :: rest)
  | _ => []

/-- split_segment_at_boundaries: keep the boundaries strictly inside
(seg_start, seg_end); with none the segment is returned whole, otherwise cut
at each of them in sorted order. -/
def split_segment_at_boundaries (seg_start seg_end : ℚ) (boundaries : List ℚ) :
    List (ℚ × ℚ) :=
  let valid := boundaries.filter (fun b => decide (seg_start < b) && decide (b < seg_end))
  if valid = [] then [(seg_start, seg_end)]
  else consecPairs (seg_start :: sortByLe (fun a b => decide (a ≤ b)) valid ++ [seg_end])

/-! ## yamnet_detector.py — get_music_segments -/

/-- get_music_segments: detect frames, merge them to coarse segments, and
split every coarse segment at its accepted boundaries; the fine endpoints
are rounded to 2 decimals. find_boundaries_in_segment is called with its
default thresholds (0.3, 5.0), and its change signal for the coarse segment
(seg_start, seg_end) is the external input signal seg_start seg_end. -/
def get_music_segments (D : YAMNetDetector) (frameScores : List (List ℚ))
    (signal : ℚ → ℚ → List ℚ) : List (ℚ × ℚ) :=
  let music_frames := detect_music_frames D frameScores
  if music_frames = [] then []
  else
    let coarse := _merge_frames_to_segments D music_frames
    if coarse = [] then []
    else
      coarse.flatMap (fun se =>
        let boundaries := find_boundaries_in_segment se.1 se.2
          (signal se.1 se.2) (mkRat 3 10) 5
        (split_segment_at_boundaries se.1 se.2 boundaries).map
          (fun fe => (round2 fe.1, round2 fe.2)))

/-! ## service.py — oracle verdicts and the confirmed-segment store -/

/-- Track metadata extracted by _parse_result from a matched response:
title, artist, album, duration (seconds) and the acrid track identifier
(absent keys become none / the documented fallbacks upstream). -/
structure Music where
  title : Option String
  artist : String
  album : String
  duration : ℤ
  acrid : Option String
deriving DecidableEq

/-- The three shapes a parsed oracle verdict can take (the dictionaries
returned by ACRCloudService.identify via _parse_result): copyrighted True
with music metadata, copyrighted False, or copyrighted None with an error
string (API error, network error or unexpected response shape). -/
inductive IdResult where
  | matched (music : Music)
  | noMatch
  | error (msg : String)
deriving DecidableEq

/-- A confirmed segment dictionary of identify_with_yamnet:
start, end (named stop here, end is reserved), duration and music. -/
structure ConfirmedSegment where
  start : ℚ
  stop : ℚ
  duration : ℚ
  music : Music
deriving DecidableEq

/-- Python truthiness of the acrid value: not None and not the empty
string (the test if ... and acrid and ... in identify_with_yamnet). -/
def acridTruthy : Option String → Bool
  | none => false
  | some s => !(s = "")

/-- prev_acrid: confirmed_segments[-1].get("music", {}).get("acrid") when the
list is nonempty, None otherwise. -/
def prevAcrid (segs : List ConfirmedSegment) : Option String :=
  (segs.getLast?).bind (fun sg => sg.music.acrid)

/-- In-place mutation of the last list element (confirmed_segments[-1]). -/
def update_last {α : Type} (f : α → α) : List α → List α
  | [] => []
  | [a] => [f a]
  | a :: b :: rest => a :: update_last f (b :: rest)

/-- The per-probe update of identify_with_yamnet (the body of the inner probe
loop after the oracle verdict is parsed): on a match whose acrid is truthy
and equal to the last confirmed segment's acrid, extend that segment's end to
this probe's end and recompute its duration; on any other match append a new
segment; otherwise leave the list unchanged. -/
def stitchStep (segs : List ConfirmedSegment) (probe_start probe_end : ℚ)
    (r : IdResult) : List ConfirmedSegment :=
  match r with
  | IdResult.matched music =>
    if !segs.isEmpty && acridTruthy music.acrid
        && (music.acrid = prevAcrid segs) then
      update_last (fun sg =>
        { sg with stop := round2 probe_end,
                  duration := round2 (probe_end - sg.start) }) segs
    else
      segs ++ [{ start := round2 probe_start, stop := round2 probe_end,
                 duration := round2 (probe_end - probe_start), music := music }]
  | _ => segs

/-! ## service.py — _get_probe_points and the probe loop -/

/-- The while loop of _get_probe_points with an explicit fuel: emits the
current position and advances by probe_interval while more than 2 seconds
remain before seg_end. -/
def probe_scan (seg_end probe_interval : ℚ) : ℕ → ℚ → List ℚ
  | 0, _ => []
  | fuel + 1, current =>
    if current < seg_end - 2 then
      current :: probe_scan seg_end probe_interval fuel (current + probe_interval)
    else []

/-- _get_probe_points: probe timestamps inside a segment. The fuel bound
exceeds the iteration count of the source loop whenever that loop
terminates (in particular for the positive interval the caller uses). -/
def _get_probe_points (seg_start seg_end : ℚ) (probe_interval : ℚ) : List ℚ :=
  probe_scan seg_end probe_interval
    (fuelFor ((seg_end - seg_start) / probe_interval)) seg_start

/-- The probe windows the stitcher queries, in order: for every candidate
segment (s, e), the probes at _get_probe_points s e 8.0 with the query window
(p, min (p + 12.0) e). -/
def runWindows (candidate_segments : List (ℚ × ℚ)) : List (ℚ × ℚ) :=
  candidate_segments.flatMap (fun se =>
    (_get_probe_points se.1 se.2 8).map (fun p => (p, min (p + 12) se.2)))

/-- The stitcher's fold of stitchStep over a list of probe windows, querying
the oracle on each window. -/
def stitchFold (oracle : ℚ → ℚ → IdResult) (segs : List ConfirmedSegment)
    (windows : List (ℚ × ℚ)) : List ConfirmedSegment :=
  windows.foldl (fun acc w => stitchStep acc w.1 w.2 (oracle w.1 w.2)) segs

/-- The result dictionary of a detection run. -/
structure RunResult (σ : Type) where
  copyrighted : Option Bool
  segments : List σ
  error : Option String
deriving DecidableEq

/-- identify_with_yamnet. The detector is constructed with the given
confidence_threshold and min_segment_duration and the constructor defaults
background_music_threshold = 0.05 and merge_gap = 2.0 (the chroma_threshold
parameter of identify_with_yamnet is never used by the source). Candidate
segments come from get_music_segments; with none the run returns
copyrighted False and no segments, otherwise every candidate segment is
probed and the verdicts are stitched; copyrighted is the nonemptiness of the
confirmed list and no error field is set on this path. -/
def identify_with_yamnet (confidence_threshold min_segment_duration : ℚ)
    (class_names : List String) (frameScores : List (List ℚ))
    (signal : ℚ → ℚ → List ℚ) (oracle : ℚ → ℚ → IdResult) :
    RunResult ConfirmedSegment :=
  let detector : YAMNetDetector :=
    { class_names := class_names
      confidence_threshold := confidence_threshold
      background_music_threshold := mkRat 5 100
      min_segment_duration := min_segment_duration
      merge_gap := 2 }
  let candidate_segments := get_music_segments detector frameScores signal
  if candidate_segments = [] then
    { copyrighted := some false, segments := [], error := none }
  else
    let confirmed_segments := stitchFold oracle [] (runWindows candidate_segments)
    { copyrighted := some (decide (0 < confirmed_segments.length)),
      segments := confirmed_segments,
      error := none }

/-! ## service.py — identify_with_timeline and _merge_segments -/

/-- A raw hit of the fallback timeline loop: start, end, music. -/
structure TimelineHit where
  start : ℚ
  stop : ℚ
  music : Music
deriving DecidableEq

/-- A merged timeline segment (after _merge_segments adds duration). -/
structure TimelineSegment where
  start : ℚ
  stop : ℚ
  music : Music
  duration : ℚ
deriving DecidableEq

/-- The chunking loop of identify_with_timeline with explicit fuel: while
current < total_duration, query the oracle over (current, current +
chunk_seconds) and record a hit on a matched verdict, then advance by step. -/
def timeline_scan (oracle : ℚ → ℚ → IdResult) (total_duration chunk_seconds step : ℚ) :
    ℕ → ℚ → List TimelineHit
  | 0, _ => []
  | fuel + 1, current =>
    if current < total_duration then
      (match oracle current (current + chunk_seconds) with
       | IdResult.matched m => [{ start := current, stop := current + chunk_seconds, music := m }]
       | _ => []) ++
      timeline_scan oracle total_duration chunk_seconds step fuel (current + step)
    else []

/-- The merge pass of _merge_segments: a hit within gap_threshold of the last
output segment's end extends that end (keeping its music), otherwise the hit
starts a new output segment. -/
def timeline_merge_scan (gap_threshold : ℚ) (last : TimelineHit) :
    List TimelineHit → List TimelineHit
  | [] => [last]
  | seg :: rest =>
    if seg.start - last.stop ≤ gap_threshold then
      timeline_merge_scan gap_threshold { last with stop := seg.stop } rest
    else
      last :: timeline_merge_scan gap_threshold seg rest

/-- _merge_segments: sort the hits by start (stable), merge nearby ones
regardless of track identity, then attach duration = round(end - start, 2)
to every merged segment. -/
def _merge_segments (segments : List TimelineHit) (gap_threshold : ℚ) :
    List TimelineSegment :=
  match sortByLe (fun a b => decide (a.start ≤ b.start)) segments with
  | [] => []
  | first :: rest =>
    (timeline_merge_scan gap_threshold first rest).map
      (fun sg => { start := sg.start, stop := sg.stop, music := sg.music,
                   duration := round2 (sg.stop - sg.start) })

/-- identify_with_timeline: total_duration is the external ffprobe result;
the loop walks the timeline with stride chunk_seconds - overlap_seconds,
collects matched windows, merges them with gap_threshold 3 and reports
copyrighted as nonemptiness of the merged list. -/
def identify_with_timeline (oracle : ℚ → ℚ → IdResult) (total_duration : ℚ)
    (chunk_seconds overlap_seconds : ℚ) : RunResult TimelineSegment :=
  let step := chunk_seconds - overlap_seconds
  let segments := timeline_scan oracle total_duration chunk_seconds step
    (fuelFor (total_duration / step)) 0
  let merged := _merge_segments segments 3
  { copyrighted := some (decide (0 < merged.length)),
    segments := merged,
    error := none }

/-! ## Auxiliary notions used by the verification layer -/

/-- Last element of a list with an explicit default for the empty list. -/
def lastD {α : Type} (d : α) : List α → α
  | [] => d
  | a :: l => lastD a l

/-- The ordering relation the stitcher's probe windows satisfy along a run:
the next probe starts more than 2 seconds later and its window does not end
earlier. -/
def WindowRel (w w' : ℚ × ℚ) : Prop := w.1 + 2 < w'.1 ∧ w.2 ≤ w'.2

/-- Invariant of the confirmed-segment list after processing a probe window
w: starts are strictly increasing, and every stored start (resp. end) is at
most the rounding of w's probe start (resp. probe end). -/
def SegsInv (segs : List ConfirmedSegment) (w : ℚ × ℚ) : Prop :=
  segs.Pairwise (fun a b => a.start < b.start) ∧
  ∀ sg ∈ segs, sg.start ≤ round2 w.1 ∧ sg.stop ≤ round2 w.2

/-- Frame relation between two snapshots of the confirmed-segment list:
the second extends the first, keeping every already-present segment's start
and music and never decreasing its end. -/
def Preserves (A B : List ConfirmedSegment) : Prop :=
  A.length ≤ B.length ∧
  ∀ (j : ℕ) (hA : j < A.length) (hB : j < B.length),
    (B.get ⟨j, hB⟩).start = (A.get ⟨j, hA⟩).start ∧
    (B.get ⟨j, hB⟩).music = (A.get ⟨j, hA⟩).music ∧
    (A.get ⟨j, hA⟩).stop ≤ (B.get ⟨j, hB⟩).stop

/-! ## Concrete inputs used by witnesses and counterexamples -/

/-- A taxonomy with a single, music-related class. -/
def cxNames : List String := ["Music"]

/-- 40 frames whose single class scores 0.5: every frame is active, and the
merged coarse segment is (0, 19.9875), one fine segment (0, 19.99) after
rounding. -/
def cxScores : List (List ℚ) := List.replicate 40 [mkRat 1 2]

/-- A detector instance over cxNames with the identify_with_yamnet defaults. -/
def cxDetector : YAMNetDetector :=
  { class_names := cxNames
    confidence_threshold := mkRat 1 10
    background_music_threshold := mkRat 5 100
    min_segment_duration := 3
    merge_gap := 2 }

/-- A first identified track. -/
def trackA : Music :=
  { title := some "A", artist := "artA", album := "albumA",
    duration := 100, acrid := some "acrA" }

/-- A second identified track with a different acrid. -/
def trackB : Music :=
  { title := some "B", artist := "artB", album := "albumB",
    duration := 100, acrid := some "acrB" }

/-- A track whose acrid is missing (music.get('acrid') is None). -/
def trackNoAcrid : Music :=
  { title := some "N", artist := "artN", album := "albumN",
    duration := 100, acrid := none }

/-- An oracle that reports trackA for the probe window starting at 0,
trackB for the probe window starting at 8, and a miss elsewhere. -/
def cxOracle : ℚ → ℚ → IdResult := fun p _ =>
  if p = 0 then IdResult.matched trackA
  else if p = 8 then IdResult.matched trackB
  else IdResult.noMatch

/-- An oracle whose response always has an unexpected shape, i.e. every
verdict is the protocol-error dictionary produced by _parse_result. -/
def cxErrOracle : ℚ → ℚ → IdResult :=
  fun _ _ => IdResult.error "Invalid response: unexpected shape"

/-- A confirmed segment whose track has no acrid. -/
def cxSegNoAcrid : ConfirmedSegment :=
  { start := 0, stop := 12, duration := 12, music := trackNoAcrid }

/-! ## Properties of rounding -/

theorem rat_floor_eq_intFloor (y : ℚ) : Rat.floor y = ⌊y⌋ := by
  rfl

/-- Branch analysis of round-half-to-even. -/
theorem rhe_spec (y : ℚ) :
    (y - (Rat.floor y : ℚ) < 1/2 ∧ rhe y = Rat.floor y) ∨
    ((1:ℚ)/2 < y - (Rat.floor y : ℚ) ∧ rhe y = Rat.floor y + 1) ∨
    (y - (Rat.floor y : ℚ) = 1/2 ∧
      ((Rat.floor y % 2 = 0 ∧ rhe y = Rat.floor y) ∨
       (Rat.floor y % 2 ≠ 0 ∧ rhe y = Rat.floor y + 1))) := by
  unfold rhe
  by_cases c1 : y - (Rat.floor y : ℚ) < 1/2
  · left
    exact ⟨c1, if_pos c1⟩
  · rw [if_neg c1]
    by_cases c2 : (1:ℚ)/2 < y - (Rat.floor y : ℚ)
    · right; left
      exact ⟨c2, if_pos c2⟩
    · rw [if_neg c2]
      right; right
      refine ⟨le_antisymm (not_lt.mp c2) (not_lt.mp c1), ?_⟩
      by_cases c3 : Rat.floor y % 2 = 0
      · left; exact ⟨c3, if_pos c3⟩
      · right; exact ⟨c3, if_neg c3⟩

theorem floor_le_rhe (y : ℚ) : Rat.floor y ≤ rhe y := by
  rcases rhe_spec y with ⟨_, h⟩ | ⟨_, h⟩ | ⟨_, h | h⟩ <;> omega

theorem rhe_le_floor_add_one (y : ℚ) : rhe y ≤ Rat.floor y + 1 := by
  rcases rhe_spec y with ⟨_, h⟩ | ⟨_, h⟩ | ⟨_, h | h⟩ <;> omega

theorem rhe_le (y : ℚ) : (rhe y : ℚ) ≤ y + 1/2 := by
  have h1 : ((Rat.floor y : ℤ) : ℚ) ≤ y := by
    rw [rat_floor_eq_intFloor]; exact Int.floor_le y
  rcases rhe_spec y with ⟨hb, h⟩ | ⟨hb, h⟩ | ⟨hb, ⟨_, h⟩ | ⟨_, h⟩⟩ <;>
    rw [h] <;> push_cast <;> linarith

theorem le_rhe (y : ℚ) : y - 1/2 ≤ (rhe y : ℚ) := by
  have h1 : y < ((Rat.floor y : ℤ) : ℚ) + 1 := by
    rw [rat_floor_eq_intFloor]; exact Int.lt_floor_add_one y
  rcases rhe_spec y with ⟨hb, h⟩ | ⟨hb, h⟩ | ⟨hb, ⟨_, h⟩ | ⟨_, h⟩⟩ <;>
    rw [h] <;> push_cast <;> linarith

theorem rhe_mono {y y' : ℚ} (h : y ≤ y') : rhe y ≤ rhe y' := by
  have hfm : Rat.floor y ≤ Rat.floor y' := by
    rw [rat_floor_eq_intFloor, rat_floor_eq_intFloor]
    exact Int.floor_le_floor h
  rcases lt_or_eq_of_le hfm with hlt | hfe
  · have h1 := rhe_le_floor_add_one y
    have h2 := floor_le_rhe y'
    omega
  · have hq : ((Rat.floor y : ℤ) : ℚ) = ((Rat.floor y' : ℤ) : ℚ) := by
      rw [hfe]
    have hd : y - (Rat.floor y : ℚ) ≤ y' - (Rat.floor y' : ℚ) := by
      rw [← hq]; linarith
    rcases rhe_spec y with ⟨hb, hv⟩ | ⟨hb, hv⟩ | ⟨hb, ⟨hp, hv⟩ | ⟨hp, hv⟩⟩ <;>
      rcases rhe_spec y' with ⟨hb', hv'⟩ | ⟨hb', hv'⟩ | ⟨hb', ⟨hp', hv'⟩ | ⟨hp', hv'⟩⟩ <;>
      (try omega) <;> (try (exfalso; rw [hfe] at hb hp; first | omega | linarith)) <;>
      (try (exfalso; rw [hq] at hb; linarith))

theorem round2_mono {x x' : ℚ} (h : x ≤ x') : round2 x ≤ round2 x' := by
  unfold round2
  have h2 : (rhe (x * 100) : ℚ) ≤ (rhe (x' * 100) : ℚ) := by
    exact_mod_cast rhe_mono (mul_le_mul_of_nonneg_right h (by norm_num))
  linarith

theorem round2_le (x : ℚ) : round2 x ≤ x + 1/200 := by
  unfold round2
  have := rhe_le (x * 100)
  rw [div_le_iff₀ (by norm_num : (0:ℚ) < 100)]
  linarith

theorem le_round2 (x : ℚ) : x - 1/200 ≤ round2 x := by
  unfold round2
  have := le_rhe (x * 100)
  rw [le_div_iff₀ (by norm_num : (0:ℚ) < 100)]
  linarith

theorem rhe_add_int_mul_two (y : ℚ) (k : ℤ) : rhe (y + 2 * k) = rhe y + 2 * k := by
  unfold rhe
  have hfl : Rat.floor (y + 2 * k) = Rat.floor y + 2 * k := by
    rw [rat_floor_eq_intFloor, rat_floor_eq_intFloor]
    rw [show (2 * (k:ℚ)) = ((2 * k : ℤ) : ℚ) by push_cast; ring]
    exact Int.floor_add_int y (2 * k)
  rw [hfl]
  have harg : y + 2 * (k:ℚ) - ((Rat.floor y + 2 * k : ℤ) : ℚ) = y - (Rat.floor y : ℚ) := by
    push_cast
    ring
  rw [harg]
  have hpar : (Rat.floor y + 2 * k) % 2 = Rat.floor y % 2 := by omega
  rw [hpar]
  split
  · rfl
  · split
    · ring
    · split <;> ring

/-- If two rationals are at least g apart and 100 * g is an even integer,
their round2 images are at least g apart as well. -/
theorem round2_gap {a a' g : ℚ} (k : ℤ) (hk : g = k / 50) (h : a + g ≤ a') :
    round2 a + g ≤ round2 a' := by
  have h2 : round2 (a + g) ≤ round2 a' := round2_mono h
  have h3 : round2 (a + g) = round2 a + g := by
    unfold round2
    have : (a + g) * 100 = a * 100 + 2 * k := by
      rw [hk]; ring
    rw [this, rhe_add_int_mul_two]
    push_cast
    rw [hk]
    ring
  linarith [h2, h3]


/-! ## Properties of the stable sort model -/

theorem mem_insertByLe {α : Type} (le : α → α → Bool) (a x : α) :
    ∀ l : List α, x ∈ insertByLe le a l ↔ x = a ∨ x ∈ l := by
  intro l
  induction l with
  | nil => simp [insertByLe]
  | cons b t ih =>
    unfold insertByLe
    split
    · simp only [List.mem_cons, ih]
      tauto
    · simp only [List.mem_cons]

theorem mem_sortByLe {α : Type} (le : α → α → Bool) (x : α) (l : List α) :
    x ∈ sortByLe le l ↔ x ∈ l := by
  suffices h : ∀ (l acc : List α),
      (x ∈ l.foldl (fun acc x => insertByLe le x acc) acc ↔ x ∈ l ∨ x ∈ acc) by
    unfold sortByLe
    rw [h l []]
    simp
  intro l
  induction l with
  | nil => simp
  | cons b t ih =>
    intro acc
    simp only [List.foldl_cons, ih, mem_insertByLe, List.mem_cons]
    tauto

theorem sorted_insertByLe (a : ℚ) (l : List ℚ)
    (h : l.Sorted (· ≤ ·)) :
    (insertByLe (fun a b => decide (a ≤ b)) a l).Sorted (· ≤ ·) := by
  induction l with
  | nil => simp [insertByLe]
  | cons b t ih =>
    rw [List.sorted_cons] at h
    unfold insertByLe
    split
    · rename_i hle
      rw [List.sorted_cons]
      refine ⟨?_, ih h.2⟩
      intro x hx
      rcases (mem_insertByLe _ a x t).mp hx with rfl | hxt
      · exact of_decide_eq_true hle
      · exact h.1 x hxt
    · rename_i hle
      have hab : a ≤ b := le_of_not_le (by simpa using hle)
      rw [List.sorted_cons]
      refine ⟨?_, List.sorted_cons.mpr h⟩
      intro x hx
      rcases List.mem_cons.mp hx with rfl | hxt
      · exact hab
      · exact le_trans hab (h.1 x hxt)

theorem sorted_sortByLe (l : List ℚ) :
    (sortByLe (fun a b => decide (a ≤ b)) l).Sorted (· ≤ ·) := by
  suffices h : ∀ (l acc : List ℚ), acc.Sorted (· ≤ ·) →
      (l.foldl (fun acc x => insertByLe (fun a b => decide (a ≤ b)) x acc) acc).Sorted (· ≤ ·) by
    exact h l [] (by simp)
  intro l
  induction l with
  | nil => intro acc h; simpa using h
  | cons b t ih =>
    intro acc h
    exact ih _ (sorted_insertByLe b acc h)

/-! ## Properties of consecPairs and split_segment_at_boundaries -/

theorem cons_getLast?_of_ne_nil {α : Type} (a : α) (l : List α) (h : l ≠ []) :
    (a :: l).getLast? = l.getLast? := by
  cases l with
  | nil => exact absurd rfl h
  | cons b t => rfl

theorem cons_dropLast_of_ne_nil {α : Type} (a : α) (l : List α) (h : l ≠ []) :
    (a :: l).dropLast = a :: l.dropLast := by
  cases l with
  | nil => exact absurd rfl h
  | cons b t => rfl

theorem consecPairs_ne_nil (a b : ℚ) (l : List ℚ) :
    consecPairs (a :: b :: l) ≠ [] := by
  unfold consecPairs
  simp

theorem consecPairs_head (x y : ℚ) (l : List ℚ) :
    ((consecPairs (x :: (l ++ [y]))).head?).map Prod.fst = some x := by
  cases l with
  | nil => rfl
  | cons a t => rfl

theorem consecPairs_getLast (x y : ℚ) (l : List ℚ) :
    ((consecPairs (x :: (l ++ [y]))).getLast?).map Prod.snd = some y := by
  induction l generalizing x with
  | nil => rfl
  | cons a t ih =>
    have hstep : consecPairs (x :: ((a :: t) ++ [y])) =
        (x, a) :: consecPairs (a :: (t ++ [y])) := by
      simp [consecPairs]
    rw [hstep]
    have hne : consecPairs (a :: (t ++ [y])) ≠ [] := by
      cases t with
      | nil => simp [consecPairs]
      | cons c u => simp [consecPairs]
    rw [cons_getLast?_of_ne_nil _ _ hne]
    exact ih a

theorem consecPairs_chain (pts : List ℚ) :
    (consecPairs pts).Chain' (fun a b => a.2 = b.1) := by
  match pts with
  | [] => simp [consecPairs]
  | [a] => simp [consecPairs]
  | a :: b :: rest =>
    have ih := consecPairs_chain (b :: rest)
    unfold consecPairs
    cases rest with
    | nil => simp [consecPairs]
    | cons c u =>
      rw [show consecPairs (b :: c :: u) = (b, c) :: consecPairs (c :: u) from rfl] at ih ⊢
      exact List.Chain'.cons rfl ih

theorem consecPairs_wf (pts : List ℚ) (h : pts.Sorted (· ≤ ·)) :
    ∀ sg ∈ consecPairs pts, sg.1 ≤ sg.2 := by
  match pts with
  | [] => simp [consecPairs]
  | [a] => simp [consecPairs]
  | a :: b :: rest =>
    intro sg hsg
    rw [show consecPairs (a :: b :: rest) = (a, b) :: consecPairs (b :: rest) from rfl] at hsg
    rcases List.mem_cons.mp hsg with rfl | htail
    · exact (List.sorted_cons.mp h).1 b (by simp)
    · exact consecPairs_wf (b :: rest) (List.sorted_cons.mp h).2 sg htail

theorem consecPairs_dropLast (x y : ℚ) (l : List ℚ) :
    ((consecPairs (x :: (l ++ [y]))).dropLast).map Prod.snd = l := by
  induction l generalizing x with
  | nil => rfl
  | cons a t ih =>
    have hstep : consecPairs (x :: ((a :: t) ++ [y])) =
        (x, a) :: consecPairs (a :: (t ++ [y])) := by
      simp [consecPairs]
    rw [hstep]
    have hne : consecPairs (a :: (t ++ [y])) ≠ [] := by
      cases t with
      | nil => simp [consecPairs]
      | cons c u => simp [consecPairs]
    rw [cons_dropLast_of_ne_nil _ _ hne]
    simp only [List.map_cons]
    rw [ih a]

theorem chain_eq_lb : ∀ (l : List (ℚ × ℚ)) (a : ℚ × ℚ),
    (a :: l).Chain' (fun x y => x.2 = y.1) → (∀ sg ∈ a :: l, sg.1 ≤ sg.2) →
    ∀ b ∈ l, a.2 ≤ b.1 := by
  intro l
  induction l with
  | nil => intro a _ _ b hb; simp at hb
  | cons c t ih =>
    intro a hchain hwf b hb
    rw [List.chain'_cons] at hchain
    rcases List.mem_cons.mp hb with rfl | hbt
    · exact le_of_eq hchain.1
    · have hc : a.2 = c.1 := hchain.1
      have h2 : c.1 ≤ c.2 := hwf c (by simp)
      have h3 := ih c hchain.2 (fun sg hsg => hwf sg (List.mem_cons_of_mem a hsg)) b hbt
      linarith [h3]

theorem chain_eq_wf_pairwise : ∀ (l : List (ℚ × ℚ)),
    l.Chain' (fun x y => x.2 = y.1) → (∀ sg ∈ l, sg.1 ≤ sg.2) →
    l.Pairwise (fun x y => x.1 ≤ y.1) := by
  intro l
  induction l with
  | nil => intro _ _; simp
  | cons a t ih =>
    intro hchain hwf
    rw [List.pairwise_cons]
    constructor
    · intro b hb
      have h1 : a.1 ≤ a.2 := hwf a (by simp)
      have h2 := chain_eq_lb t a hchain hwf b hb
      linarith
    · exact ih ((List.chain'_cons'.mp hchain).2)
        (fun sg hsg => hwf sg (List.mem_cons_of_mem a hsg))

/-- Core partition properties of split_segment_at_boundaries, proved for
seg_start ≤ seg_end so they can also serve the degenerate segments the
pipeline can produce. -/
theorem split_segment_props (seg_start seg_end : ℚ) (boundaries : List ℚ)
    (h : seg_start ≤ seg_end) :
    split_segment_at_boundaries seg_start seg_end boundaries ≠ [] ∧
    ((split_segment_at_boundaries seg_start seg_end boundaries).head?).map Prod.fst
      = some seg_start ∧
    ((split_segment_at_boundaries seg_start seg_end boundaries).getLast?).map Prod.snd
      = some seg_end ∧
    (split_segment_at_boundaries seg_start seg_end boundaries).Chain'
      (fun a b => a.2 = b.1) ∧
    (∀ sg ∈ split_segment_at_boundaries seg_start seg_end boundaries, sg.1 ≤ sg.2) ∧
    (split_segment_at_boundaries seg_start seg_end boundaries).Pairwise
      (fun a b => a.1 ≤ b.1) ∧
    (∀ c ∈ ((split_segment_at_boundaries seg_start seg_end boundaries).dropLast).map
        Prod.snd, c ∈ boundaries ∧ seg_start < c ∧ c < seg_end) ∧
    ((∀ b ∈ boundaries, ¬(seg_start < b ∧ b < seg_end)) →
      split_segment_at_boundaries seg_start seg_end boundaries
        = [(seg_start, seg_end)]) := by
  unfold split_segment_at_boundaries
  set valid := boundaries.filter
    (fun b => decide (seg_start < b) && decide (b < seg_end)) with hvalid
  have hvmem : ∀ c ∈ valid, c ∈ boundaries ∧ seg_start < c ∧ c < seg_end := by
    intro c hc
    rw [hvalid, List.mem_filter] at hc
    refine ⟨hc.1, ?_, ?_⟩
    · have := hc.2
      simp only [Bool.and_eq_true, decide_eq_true_eq] at this
      exact this.1
    · have := hc.2
      simp only [Bool.and_eq_true, decide_eq_true_eq] at this
      exact this.2
  by_cases hv : valid = []
  · rw [if_pos hv]
    refine ⟨by simp, by simp, by simp, by simp, ?_, by simp, by simp, fun _ => rfl⟩
    intro sg hsg
    rcases List.mem_singleton.mp hsg with rfl
    exact h
  · rw [if_neg hv]
    set sv := sortByLe (fun a b => decide (a ≤ b)) valid with hsv
    have hsvmem : ∀ c ∈ sv, c ∈ boundaries ∧ seg_start < c ∧ c < seg_end := by
      intro c hc
      exact hvmem c ((mem_sortByLe _ c valid).mp (hsv ▸ hc))
    have hpts : (seg_start :: sv) ++ [seg_end] = seg_start :: (sv ++ [seg_end]) := rfl
    have hsorted : (seg_start :: (sv ++ [seg_end])).Sorted (· ≤ ·) := by
      rw [List.sorted_cons]
      constructor
      · intro b hb
        rcases List.mem_append.mp hb with hbl | hbr
        · exact le_of_lt (hsvmem b hbl).2.1
        · rcases List.mem_singleton.mp hbr with rfl
          exact h
      · refine List.pairwise_append.mpr ⟨hsv ▸ sorted_sortByLe valid, by simp, ?_⟩
        intro a ha b hb
        rcases List.mem_singleton.mp hb with rfl
        exact le_of_lt (hsvmem a ha).2.2
    have hchain := consecPairs_chain (seg_start :: (sv ++ [seg_end]))
    have hwf := consecPairs_wf (seg_start :: (sv ++ [seg_end])) hsorted
    rw [hpts]
    refine ⟨?_, consecPairs_head seg_start seg_end sv, consecPairs_getLast seg_start seg_end sv,
      hchain, hwf, chain_eq_wf_pairwise _ hchain hwf, ?_, ?_⟩
    · cases hsvv : sv with
      | nil => simp [consecPairs]
      | cons a t => simp [consecPairs]
    · intro c hc
      rw [consecPairs_dropLast seg_start seg_end sv] at hc
      exact hsvmem c hc
    · intro hnone
      exfalso
      apply hv
      rw [hvalid, List.filter_eq_nil_iff]
      intro b hb
      have := hnone b hb
      simp only [Bool.and_eq_true, decide_eq_true_eq]
      tauto

/-- C3: for every coarse segment (s, e) with s < e and every boundary list,
split_segment_at_boundaries returns a nonempty list of fine segments that
exactly partitions (s, e): the first starts at s, the last ends at e, every
segment's end is the next segment's start (no gaps, no overlaps), every
segment is well ordered and the list is sorted by start; the interior cut
points are exactly boundaries lying strictly inside (s, e); and if no
boundary lies strictly inside, the single segment (s, e) is returned. -/
theorem claim_C3_split_partitions (seg_start seg_end : ℚ) (boundaries : List ℚ)
    (h : seg_start < seg_end) :
    split_segment_at_boundaries seg_start seg_end boundaries ≠ [] ∧
    ((split_segment_at_boundaries seg_start seg_end boundaries).head?).map Prod.fst
      = some seg_start ∧
    ((split_segment_at_boundaries seg_start seg_end boundaries).getLast?).map Prod.snd
      = some seg_end ∧
    (split_segment_at_boundaries seg_start seg_end boundaries).Chain'
      (fun a b => a.2 = b.1) ∧
    (∀ sg ∈ split_segment_at_boundaries seg_start seg_end boundaries, sg.1 ≤ sg.2) ∧
    (split_segment_at_boundaries seg_start seg_end boundaries).Pairwise
      (fun a b => a.1 ≤ b.1) ∧
    (∀ c ∈ ((split_segment_at_boundaries seg_start seg_end boundaries).dropLast).map
        Prod.snd, c ∈ boundaries ∧ seg_start < c ∧ c < seg_end) ∧
    ((∀ b ∈ boundaries, ¬(seg_start < b ∧ b < seg_end)) →
      split_segment_at_boundaries seg_start seg_end boundaries
        = [(seg_start, seg_end)]) :=
  split_segment_props seg_start seg_end boundaries (le_of_lt h)

/-- Witness for C3 at the concrete segment (0, 10) with boundaries [7, 3, 20]:
the hypothesis 0 < 10 holds and the split is [(0,3), (3,7), (7,10)]. -/
theorem claim_C3_split_partitions_witness :
    split_segment_at_boundaries 0 10 [7, 3, 20] = [(0, 3), (3, 7), (7, 10)] ∧
    (split_segment_at_boundaries 0 10 [7, 3, 20]).Chain' (fun a b => a.2 = b.1) :=
  ⟨by with_unfolding_all decide,
   (claim_C3_split_partitions 0 10 [7, 3, 20] (by norm_num)).2.2.2.1⟩

/-! ## Properties of accept_boundaries and find_boundaries_in_segment -/

theorem hop_duration_nonneg : 0 ≤ hop_duration := by
  with_unfolding_all decide

theorem accept_boundaries_mem (seg_start thr gap : ℚ) :
    ∀ (l : List ℚ) (i : ℕ) (lb b : ℚ),
    b ∈ accept_boundaries seg_start thr gap i lb l →
    ∃ j : ℕ, i ≤ j ∧ j < i + l.length ∧
      b = round2 (seg_start + (j : ℚ) * hop_duration) ∧
      lb + gap ≤ seg_start + (j : ℚ) * hop_duration := by
  intro l
  induction l with
  | nil => intro i lb b hb; simp [accept_boundaries] at hb
  | cons change rest ih =>
    intro i lb b hb
    unfold accept_boundaries at hb
    by_cases h1 : thr ≤ change
    · rw [if_pos h1] at hb
      by_cases h2 : gap ≤ seg_start + (i : ℚ) * hop_duration - lb
      · rw [if_pos h2] at hb
        rcases List.mem_cons.mp hb with rfl | htail
        · exact ⟨i, le_refl i, by simp, rfl, by linarith⟩
        · obtain ⟨j, hij, hjlen, hbj, hlbj⟩ :=
            ih (i + 1) (seg_start + (i : ℚ) * hop_duration) b htail
          refine ⟨j, by omega, by simp at hjlen ⊢; omega, hbj, ?_⟩
          have hmono : (i : ℚ) * hop_duration ≤ (j : ℚ) * hop_duration := by
            apply mul_le_mul_of_nonneg_right _ hop_duration_nonneg
            exact_mod_cast Nat.le_of_succ_le hij
          linarith
      · rw [if_neg h2] at hb
        obtain ⟨j, hij, hjlen, hbj, hlbj⟩ := ih (i + 1) lb b hb
        exact ⟨j, by omega, by simp at hjlen ⊢; omega, hbj, hlbj⟩
    · rw [if_neg h1] at hb
      obtain ⟨j, hij, hjlen, hbj, hlbj⟩ := ih (i + 1) lb b hb
      exact ⟨j, by omega, by simp at hjlen ⊢; omega, hbj, hlbj⟩

theorem accept_boundaries_pairwise (seg_start thr gap : ℚ) (k : ℤ)
    (hk : gap = k / 50) :
    ∀ (l : List ℚ) (i : ℕ) (lb : ℚ),
    (accept_boundaries seg_start thr gap i lb l).Pairwise
      (fun b b' => b + gap ≤ b') := by
  intro l
  induction l with
  | nil => intro i lb; simp [accept_boundaries]
  | cons change rest ih =>
    intro i lb
    unfold accept_boundaries
    by_cases h1 : thr ≤ change
    · rw [if_pos h1]
      by_cases h2 : gap ≤ seg_start + (i : ℚ) * hop_duration - lb
      · rw [if_pos h2]
        rw [List.pairwise_cons]
        refine ⟨?_, ih (i + 1) (seg_start + (i : ℚ) * hop_duration)⟩
        intro b' hb'
        obtain ⟨j, hij, _, hbj, hlbj⟩ := accept_boundaries_mem seg_start thr gap rest
          (i + 1) (seg_start + (i : ℚ) * hop_duration) b' hb'
        rw [hbj]
        exact round2_gap k hk hlbj
      · rw [if_neg h2]; exact ih (i + 1) lb
    · rw [if_neg h1]; exact ih (i + 1) lb

theorem accept_boundaries_pairwise_approx (seg_start thr gap : ℚ) :
    ∀ (l : List ℚ) (i : ℕ) (lb : ℚ),
    (accept_boundaries seg_start thr gap i lb l).Pairwise
      (fun b b' => b + gap - 1/100 ≤ b') := by
  intro l
  induction l with
  | nil => intro i lb; simp [accept_boundaries]
  | cons change rest ih =>
    intro i lb
    unfold accept_boundaries
    by_cases h1 : thr ≤ change
    · rw [if_pos h1]
      by_cases h2 : gap ≤ seg_start + (i : ℚ) * hop_duration - lb
      · rw [if_pos h2]
        rw [List.pairwise_cons]
        refine ⟨?_, ih (i + 1) (seg_start + (i : ℚ) * hop_duration)⟩
        intro b' hb'
        obtain ⟨j, hij, _, hbj, hlbj⟩ := accept_boundaries_mem seg_start thr gap rest
          (i + 1) (seg_start + (i : ℚ) * hop_duration) b' hb'
        rw [hbj]
        have ha := round2_le (seg_start + (i : ℚ) * hop_duration)
        have hb2 := le_round2 (seg_start + (j : ℚ) * hop_duration)
        linarith
      · rw [if_neg h2]; exact ih (i + 1) lb
    · rw [if_neg h1]; exact ih (i + 1) lb

theorem hop_duration_lb : mkRat 1 200 < hop_duration := by
  with_unfolding_all decide

/-- C4, counterexample to the claim as stated, refuting both halves the
amendment touches. First, strictly inside fails below: on the coarse segment
(0, 20) with a change signal whose first sample exceeds the threshold, the
first accepted candidate has absolute time seg_start + 0 * hop = 0, so the
returned boundary 0 is not strictly inside (0, 20). Second, the min-gap
separation fails for the returned (2-decimal-rounded) values when min_gap is
not a multiple of 1/50: with min_gap equal to one hop (256/11025 ≈ 0.02322),
the candidates at times 0.001 and 0.001 + hop are both accepted (raw times
exactly min_gap apart) but round to 0 and 0.02, which are closer than
min_gap. -/
theorem claim_C4_boundary_counterexample :
    (find_boundaries_in_segment 0 20 [mkRat 1 2] (mkRat 3 10) 5 = [0] ∧
     (0 : ℚ) ∈ find_boundaries_in_segment 0 20 [mkRat 1 2] (mkRat 3 10) 5 ∧
     ¬ ((0 : ℚ) < 0)) ∧
    (find_boundaries_in_segment (mkRat 1 1000) 10 [mkRat 1 2, mkRat 1 2]
        (mkRat 3 10) (mkRat 256 11025) = [0, mkRat 1 50] ∧
     ¬ ((0 : ℚ) + mkRat 256 11025 ≤ mkRat 1 50)) := by
  refine ⟨⟨by with_unfolding_all decide, ?_, by simp⟩,
    by with_unfolding_all decide, by with_unfolding_all decide⟩
  rw [show find_boundaries_in_segment 0 20 [mkRat 1 2] (mkRat 3 10) 5 = [0] from
    by with_unfolding_all decide]
  simp

/-- C4 (amended): for every coarse segment and change signal, (i) any two
boundaries returned by find_boundaries_in_segment are separated by at least
min_gap_between_boundaries whenever 100 * min_gap is an even integer
(min_gap = k / 50; the source default 5.0 qualifies) — for other min_gap
values the 2-decimal rounding of the returned values can bring them closer
than min_gap, as the counterexample's second part shows, though (ii) they
are always separated by more than min_gap minus 1/100; (iii) every returned
boundary is at least round2 seg_start — the first accepted candidate can sit
exactly at seg_start, so only the lower half of "strictly inside" fails —
and (iv) whenever the change signal spans at most the segment
(signal length * hop_duration ≤ seg_end - seg_start, which the source
guarantees because the signal has at most len(y) / 512 entries with
len(y) ≤ (seg_end - seg_start) * 22050), every returned boundary is
strictly less than seg_end. -/
theorem claim_C4_boundary_separation (seg_start seg_end thr gap : ℚ)
    (sig : List ℚ) (k : ℤ) (hk : gap = k / 50) :
    (find_boundaries_in_segment seg_start seg_end sig thr gap).Pairwise
      (fun b b' => b + gap ≤ b') ∧
    (find_boundaries_in_segment seg_start seg_end sig thr gap).Pairwise
      (fun b b' => b + gap - 1/100 ≤ b') ∧
    (∀ b ∈ find_boundaries_in_segment seg_start seg_end sig thr gap,
      round2 seg_start ≤ b) ∧
    ((sig.length : ℚ) * hop_duration ≤ seg_end - seg_start →
      ∀ b ∈ find_boundaries_in_segment seg_start seg_end sig thr gap,
        b < seg_end) := by
  unfold find_boundaries_in_segment
  split
  · simp
  · refine ⟨?_, ?_, ?_, ?_⟩
    · exact accept_boundaries_pairwise seg_start thr gap k hk sig 0 (-gap)
    · exact accept_boundaries_pairwise_approx seg_start thr gap sig 0 (-gap)
    · intro b hb
      obtain ⟨j, _, _, hbj, _⟩ :=
        accept_boundaries_mem seg_start thr gap sig 0 (-gap) b hb
      rw [hbj]
      apply round2_mono
      have : 0 ≤ (j : ℚ) * hop_duration :=
        mul_nonneg (by exact_mod_cast Nat.zero_le j) hop_duration_nonneg
      linarith
    · intro hlen b hb
      obtain ⟨j, _, hjlen, hbj, _⟩ :=
        accept_boundaries_mem seg_start thr gap sig 0 (-gap) b hb
      rw [hbj]
      have hj1 : (j : ℚ) ≤ (sig.length : ℚ) - 1 := by
        have : (j : ℕ) + 1 ≤ sig.length := by omega
        have hcast : ((j : ℕ) : ℚ) + 1 ≤ (sig.length : ℚ) := by exact_mod_cast this
        linarith
      have hjh : (j : ℚ) * hop_duration ≤ ((sig.length : ℚ) - 1) * hop_duration :=
        mul_le_mul_of_nonneg_right hj1 hop_duration_nonneg
      have hring : ((sig.length : ℚ) - 1) * hop_duration
          = (sig.length : ℚ) * hop_duration - hop_duration := by ring
      have hr := round2_le (seg_start + (j : ℚ) * hop_duration)
      have hhop : (1 : ℚ) / 200 < hop_duration := by
        have := hop_duration_lb
        have hq : mkRat 1 200 = (1 : ℚ) / 200 := by
          rw [Rat.mkRat_eq_div]
          norm_num
        rw [hq] at this
        exact this
      linarith

set_option maxRecDepth 1000000 in
/-- Witness for C4 at a concrete segment: with a 300-sample signal that is
everywhere above the threshold, the default parameters accept the boundary
at 0 and the next admissible candidate 5.02; 5 = 250 / 50 discharges the
even-integer hypothesis and 300 * hop ≤ 20 the signal-length hypothesis, so
both boundaries are also strictly below the segment end 20. -/
theorem claim_C4_boundary_separation_witness :
    find_boundaries_in_segment 0 20 (List.replicate 300 (mkRat 1 2))
      (mkRat 3 10) 5 = [0, mkRat 502 100] ∧
    (find_boundaries_in_segment 0 20 (List.replicate 300 (mkRat 1 2))
      (mkRat 3 10) 5).Pairwise (fun b b' => b + 5 ≤ b') ∧
    ∀ b ∈ find_boundaries_in_segment 0 20 (List.replicate 300 (mkRat 1 2))
      (mkRat 3 10) 5, b < 20 :=
  ⟨by with_unfolding_all decide,
   (claim_C4_boundary_separation 0 20 (mkRat 3 10) 5
     (List.replicate 300 (mkRat 1 2)) 250 (by norm_num)).1,
   (claim_C4_boundary_separation 0 20 (mkRat 3 10) 5
     (List.replicate 300 (mkRat 1 2)) 250 (by norm_num)).2.2.2
     (by with_unfolding_all decide)⟩

/-! ## Properties of probe_scan and _get_probe_points -/

theorem probe_scan_spec (seg_end probe_interval : ℚ) :
    ∀ (fuel : ℕ) (cur : ℚ),
    seg_end - 2 - cur ≤ (fuel : ℚ) * probe_interval →
    ∃ n : ℕ, probe_scan seg_end probe_interval fuel cur
        = (List.range n).map (fun idx : ℕ => cur + (idx : ℚ) * probe_interval) ∧
      (∀ idx < n, cur + (idx : ℚ) * probe_interval < seg_end - 2) ∧
      ¬ (cur + (n : ℚ) * probe_interval < seg_end - 2) := by
  intro fuel
  induction fuel with
  | zero =>
    intro cur hb
    refine ⟨0, by simp [probe_scan], by simp, ?_⟩
    push_cast
    simp only [zero_mul, add_zero]
    push_cast at hb
    linarith
  | succ fuel ih =>
    intro cur hb
    unfold probe_scan
    by_cases hc : cur < seg_end - 2
    · rw [if_pos hc]
      have hb' : seg_end - 2 - (cur + probe_interval) ≤ (fuel : ℚ) * probe_interval := by
        push_cast at hb ⊢
        linarith
      obtain ⟨n, heq, hlt, hge⟩ := ih (cur + probe_interval) hb'
      refine ⟨n + 1, ?_, ?_, ?_⟩
      · rw [heq, List.range_succ_eq_map, List.map_cons, List.map_map]
        congr 1
        · push_cast; ring
        · apply List.map_congr_left
          intro idx _
          simp only [Function.comp_apply]
          push_cast
          ring
      · intro idx hidx
        cases idx with
        | zero => simpa using hc
        | succ j =>
          have := hlt j (by omega)
          push_cast at this ⊢
          linarith
      · have := hge
        push_cast at this ⊢
        linarith
    · rw [if_neg hc]
      refine ⟨0, by simp, by simp, ?_⟩
      push_cast
      simp only [zero_mul, add_zero]
      exact hc

theorem _get_probe_points_spec (seg_start seg_end probe_interval : ℚ)
    (hI : 0 < probe_interval) :
    ∃ n : ℕ, _get_probe_points seg_start seg_end probe_interval
        = (List.range n).map (fun idx : ℕ => seg_start + (idx : ℚ) * probe_interval) ∧
      (∀ idx < n, seg_start + (idx : ℚ) * probe_interval < seg_end - 2) ∧
      ¬ (seg_start + (n : ℚ) * probe_interval < seg_end - 2) := by
  unfold _get_probe_points
  apply probe_scan_spec seg_end probe_interval
  have h1 : (seg_end - seg_start) / probe_interval
      ≤ (fuelFor ((seg_end - seg_start) / probe_interval) : ℚ) :=
    le_fuelFor _
  have h2 : seg_end - seg_start
      ≤ (fuelFor ((seg_end - seg_start) / probe_interval) : ℚ) * probe_interval := by
    calc seg_end - seg_start
        = (seg_end - seg_start) / probe_interval * probe_interval :=
          (div_mul_cancel₀ _ (ne_of_gt hI)).symm
      _ ≤ (fuelFor ((seg_end - seg_start) / probe_interval) : ℚ) * probe_interval :=
          mul_le_mul_of_nonneg_right h1 (le_of_lt hI)
  linarith

/-- C7: for every fine segment (s, e) and positive probe interval, the
generated probe start times are exactly s, s + interval, s + 2·interval, …
for as long as each start is strictly less than e minus the 2-second tail
floor (so every probe leaves a residual tail of at least 2 seconds), and the
stitcher queries each probe of a fine segment over the window
(p, min (p + 12) e). -/
theorem claim_C7_probe_points (seg_start seg_end probe_interval : ℚ)
    (hI : 0 < probe_interval) :
    (∃ n : ℕ, _get_probe_points seg_start seg_end probe_interval
        = (List.range n).map (fun idx : ℕ => seg_start + (idx : ℚ) * probe_interval) ∧
      (∀ idx < n, seg_start + (idx : ℚ) * probe_interval < seg_end - 2) ∧
      ¬ (seg_start + (n : ℚ) * probe_interval < seg_end - 2)) ∧
    (∀ p ∈ _get_probe_points seg_start seg_end probe_interval,
      seg_start ≤ p ∧ p < seg_end - 2 ∧ 2 ≤ seg_end - p) ∧
    runWindows [(seg_start, seg_end)]
      = (_get_probe_points seg_start seg_end 8).map
          (fun p => (p, min (p + 12) seg_end)) := by
  obtain ⟨n, heq, hlt, hge⟩ := _get_probe_points_spec seg_start seg_end probe_interval hI
  refine ⟨⟨n, heq, hlt, hge⟩, ?_, ?_⟩
  · intro p hp
    rw [heq] at hp
    obtain ⟨idx, hidx, rfl⟩ := List.mem_map.mp hp
    have hidxn : idx < n := List.mem_range.mp hidx
    have h1 := hlt idx hidxn
    have h2 : 0 ≤ (idx : ℚ) * probe_interval :=
      mul_nonneg (by exact_mod_cast Nat.zero_le idx) (le_of_lt hI)
    exact ⟨by linarith, h1, by linarith⟩
  · simp [runWindows]

/-- Witness for C7 at the fine segment (0, 20) with the source interval 8:
the probes are exactly 0, 8, 16 and each leaves at least 2 seconds of tail. -/
theorem claim_C7_probe_points_witness :
    _get_probe_points 0 20 8 = [0, 8, 16] ∧
    (∀ p ∈ _get_probe_points 0 20 8, (0:ℚ) ≤ p ∧ p < 20 - 2 ∧ 2 ≤ 20 - p) :=
  ⟨by with_unfolding_all decide, (claim_C7_probe_points 0 20 8 (by norm_num)).2.1⟩

/-! ## Properties of detect_music_frames -/

theorem FRAME_HOP_pos : 0 < FRAME_HOP := by
  with_unfolding_all decide

theorem detect_frames_from_mem (D : YAMNetDetector) :
    ∀ (L : List (List ℚ)) (i0 : ℕ) (f : ℚ × ℚ × ℚ),
    f ∈ detect_frames_from D i0 L →
    ∃ j : ℕ, j < L.length ∧
      f.1 = ((i0 + j : ℕ) : ℚ) * FRAME_HOP ∧
      f.2.1 = ((i0 + j : ℕ) : ℚ) * FRAME_HOP + FRAME_DURATION ∧
      f.2.2 = music_score D.class_names (L.getD j []) ∧
      (is_clear_music D (L.getD j []) ∨ is_bgm_under_speech D (L.getD j [])) := by
  intro L
  induction L with
  | nil => intro i0 f hf; simp [detect_frames_from] at hf
  | cons scores rest ih =>
    intro i0 f hf
    unfold detect_frames_from at hf
    by_cases hact : is_clear_music D scores ∨ is_bgm_under_speech D scores
    · rw [if_pos hact] at hf
      rcases List.mem_cons.mp hf with rfl | htail
      · refine ⟨0, by simp, by simp, by simp, by simp, by simpa using hact⟩
      · obtain ⟨j, hj, h1, h2, h3, h4⟩ := ih (i0 + 1) f htail
        refine ⟨j + 1, by simpa using hj, ?_, ?_, by simpa using h3, by simpa using h4⟩
        · rw [h1]; congr 1; push_cast; ring
        · rw [h2]; congr 2; push_cast; ring
    · rw [if_neg hact] at hf
      obtain ⟨j, hj, h1, h2, h3, h4⟩ := ih (i0 + 1) f hf
      refine ⟨j + 1, by simpa using hj, ?_, ?_, by simpa using h3, by simpa using h4⟩
      · rw [h1]; congr 1; push_cast; ring
      · rw [h2]; congr 2; push_cast; ring

theorem detect_frames_from_pairwise (D : YAMNetDetector) :
    ∀ (L : List (List ℚ)) (i0 : ℕ),
    (detect_frames_from D i0 L).Pairwise (fun f g => f.1 < g.1) := by
  intro L
  induction L with
  | nil => intro i0; simp [detect_frames_from]
  | cons scores rest ih =>
    intro i0
    unfold detect_frames_from
    by_cases hact : is_clear_music D scores ∨ is_bgm_under_speech D scores
    · rw [if_pos hact]
      rw [List.pairwise_cons]
      refine ⟨?_, ih (i0 + 1)⟩
      intro g hg
      obtain ⟨j, _, h1, _, _, _⟩ := detect_frames_from_mem D rest (i0 + 1) g hg
      rw [h1]
      simp only
      apply mul_lt_mul_of_pos_right _ FRAME_HOP_pos
      have : i0 < i0 + 1 + j := by omega
      exact_mod_cast this
    · rw [if_neg hact]
      exact ih (i0 + 1)

/-- C2: for every sequence of per-frame classifier score vectors, the frames
emitted by detect_music_frames have strictly increasing start times, and
every emitted frame comes from a frame index idx whose score vector passes
the activation predicate — music score at least confidence_threshold, or the
top-scoring class name containing "speech" with music score at least
background_music_threshold, where the music score is the maximum of the
scores at the music class indices present in the vector and 0 when that set
is empty; the emitted start is idx * FRAME_HOP, the end start + FRAME_DURATION
and the stored score is the frame's music score. Inactive frames are not
emitted. -/
theorem claim_C2_active_frames (D : YAMNetDetector) (frameScores : List (List ℚ)) :
    (detect_music_frames D frameScores).Pairwise (fun f g => f.1 < g.1) ∧
    ∀ f ∈ detect_music_frames D frameScores, ∃ idx : ℕ,
      idx < frameScores.length ∧
      f.1 = (idx : ℚ) * FRAME_HOP ∧
      f.2.1 = (idx : ℚ) * FRAME_HOP + FRAME_DURATION ∧
      f.2.2 = music_score D.class_names (frameScores.getD idx []) ∧
      (is_clear_music D (frameScores.getD idx [])
        ∨ is_bgm_under_speech D (frameScores.getD idx [])) := by
  constructor
  · exact detect_frames_from_pairwise D frameScores 0
  · intro f hf
    obtain ⟨j, hj, h1, h2, h3, h4⟩ :=
      detect_frames_from_mem D frameScores 0 f hf
    exact ⟨j, hj, by simpa using h1, by simpa using h2, h3, h4⟩

/-! ## Properties of merge_scan and _merge_frames_to_segments -/

theorem merge_scan_head (g : ℚ) :
    ∀ (l : List (ℚ × ℚ × ℚ)) (cs ce : ℚ),
    ∃ ce', (merge_scan g cs ce l).head? = some (cs, ce') := by
  intro l
  induction l with
  | nil => intro cs ce; exact ⟨ce, rfl⟩
  | cons f rest ih =>
    intro cs ce
    obtain ⟨s, e, w⟩ := f
    unfold merge_scan
    by_cases hm : s - ce ≤ g
    · rw [if_pos hm]; exact ih cs (max ce e)
    · rw [if_neg hm]; exact ⟨ce, rfl⟩

theorem merge_scan_chain (g : ℚ) :
    ∀ (l : List (ℚ × ℚ × ℚ)) (cs ce : ℚ),
    (merge_scan g cs ce l).Chain' (fun a b => g < b.1 - a.2) := by
  intro l
  induction l with
  | nil => intro cs ce; simp [merge_scan]
  | cons f rest ih =>
    intro cs ce
    obtain ⟨s, e, w⟩ := f
    unfold merge_scan
    by_cases hm : s - ce ≤ g
    · rw [if_pos hm]; exact ih cs (max ce e)
    · rw [if_neg hm]
      rw [List.chain'_cons']
      refine ⟨?_, ih s e⟩
      intro y hy
      obtain ⟨ce', hh⟩ := merge_scan_head g rest s e
      rw [hh, Option.mem_def, Option.some_inj] at hy
      rw [← hy]
      simp only
      linarith [not_le.mp hm]

theorem merge_scan_wf (g : ℚ) :
    ∀ (l : List (ℚ × ℚ × ℚ)) (cs ce : ℚ), cs ≤ ce →
    (∀ f ∈ l, f.1 ≤ f.2.1) →
    ∀ sg ∈ merge_scan g cs ce l, sg.1 ≤ sg.2 := by
  intro l
  induction l with
  | nil =>
    intro cs ce hce _ sg hsg
    rcases List.mem_singleton.mp hsg with rfl
    exact hce
  | cons f rest ih =>
    intro cs ce hce hwf sg hsg
    obtain ⟨s, e, w⟩ := f
    unfold merge_scan at hsg
    by_cases hm : s - ce ≤ g
    · rw [if_pos hm] at hsg
      exact ih cs (max ce e) (le_trans hce (le_max_left ce e))
        (fun f hf => hwf f (List.mem_cons_of_mem _ hf)) sg hsg
    · rw [if_neg hm] at hsg
      rcases List.mem_cons.mp hsg with rfl | htail
      · exact hce
      · exact ih s e (hwf (s, e, w) (by simp))
          (fun f hf => hwf f (List.mem_cons_of_mem _ hf)) sg htail

theorem chain_gap_drop (g : ℚ) (hg : 0 ≤ g) (a c : ℚ × ℚ) (l : List (ℚ × ℚ))
    (hch : (a :: c :: l).Chain' (fun x y => g < y.1 - x.2)) (hwc : c.1 ≤ c.2) :
    (a :: l).Chain' (fun x y => g < y.1 - x.2) := by
  rw [List.chain'_cons] at hch
  obtain ⟨hac, hcl⟩ := hch
  rw [List.chain'_cons']
  constructor
  · intro y hy
    have hcy := (List.chain'_cons'.mp hcl).1 y hy
    simp only at hac hcy ⊢
    linarith
  · exact (List.chain'_cons'.mp hcl).2

theorem chain_gap_filter_cons (g : ℚ) (hg : 0 ≤ g) (p : ℚ × ℚ → Bool) :
    ∀ (l : List (ℚ × ℚ)) (a : ℚ × ℚ),
    (a :: l).Chain' (fun x y => g < y.1 - x.2) →
    (∀ sg ∈ l, sg.1 ≤ sg.2) →
    (a :: l.filter p).Chain' (fun x y => g < y.1 - x.2) := by
  intro l
  induction l with
  | nil => intro a _ _; simp
  | cons c t ih =>
    intro a hch hwf
    by_cases hp : p c
    · rw [List.filter_cons_of_pos hp]
      rw [List.chain'_cons]
      exact ⟨(List.chain'_cons.mp hch).1,
        ih c (List.chain'_cons.mp hch).2
          (fun sg hsg => hwf sg (List.mem_cons_of_mem _ hsg))⟩
    · rw [List.filter_cons_of_neg hp]
      exact ih a (chain_gap_drop g hg a c t hch (hwf c (by simp)))
        (fun sg hsg => hwf sg (List.mem_cons_of_mem _ hsg))

theorem chain_gap_filter (g : ℚ) (hg : 0 ≤ g) (p : ℚ × ℚ → Bool) :
    ∀ (l : List (ℚ × ℚ)),
    l.Chain' (fun x y => g < y.1 - x.2) →
    (∀ sg ∈ l, sg.1 ≤ sg.2) →
    (l.filter p).Chain' (fun x y => g < y.1 - x.2) := by
  intro l hch hwf
  cases l with
  | nil => simp
  | cons a t =>
    by_cases hp : p a
    · rw [List.filter_cons_of_pos hp]
      exact chain_gap_filter_cons g hg p t a hch
        (fun sg hsg => hwf sg (List.mem_cons_of_mem _ hsg))
    · rw [List.filter_cons_of_neg hp]
      exact chain_gap_filter g hg p t ((List.chain'_cons'.mp hch).2)
        (fun sg hsg => hwf sg (List.mem_cons_of_mem _ hsg))

/-- The merged coarse segments are separated by gaps strictly greater than
merge_gap and are well ordered, for well-formed input frames and a
nonnegative merge_gap. -/
theorem merged_chain_wf (D : YAMNetDetector) (frames : List (ℚ × ℚ × ℚ))
    (hg : 0 ≤ D.merge_gap) (hwf : ∀ f ∈ frames, f.1 ≤ f.2.1) :
    (_merge_frames_to_segments D frames).Chain'
      (fun x y => D.merge_gap < y.1 - x.2) ∧
    ∀ sg ∈ _merge_frames_to_segments D frames, sg.1 ≤ sg.2 := by
  cases frames with
  | nil => simp [_merge_frames_to_segments]
  | cons f rest =>
    obtain ⟨s, e, w⟩ := f
    unfold _merge_frames_to_segments
    constructor
    · apply chain_gap_filter D.merge_gap hg
      · exact merge_scan_chain D.merge_gap rest s e
      · exact merge_scan_wf D.merge_gap rest s e (hwf (s, e, w) (by simp))
          (fun x hx => hwf x (List.mem_cons_of_mem _ hx))
    · intro sg hsg
      exact merge_scan_wf D.merge_gap rest s e (hwf (s, e, w) (by simp))
        (fun x hx => hwf x (List.mem_cons_of_mem _ hx)) sg
        (List.mem_of_mem_filter hsg)

theorem merge_scan_reconstruct (g : ℚ) :
    ∀ (rest : List (ℚ × ℚ)) (cs ce : ℚ),
    ((cs, ce) :: rest).Chain' (fun x y => g < y.1 - x.2) →
    merge_scan g cs ce (rest.map (fun se => (se.1, se.2, (0 : ℚ))))
      = (cs, ce) :: rest := by
  intro rest
  induction rest with
  | nil => intro cs ce _; rfl
  | cons b rest' ih =>
    intro cs ce hch
    rw [List.map_cons]
    unfold merge_scan
    have hgap : g < b.1 - ce := (List.chain'_cons.mp hch).1
    rw [if_neg (by linarith)]
    congr 1
    have := ih b.1 b.2 (by
      have h2 := (List.chain'_cons.mp hch).2
      simpa using h2)
    simpa using this

/-- C6: the coarse merge is idempotent. For every list of active frames that
is well formed (each start not after its end) and a nonnegative merge_gap,
feeding the merged segment list produced by _merge_frames_to_segments back
through the same merge (as frames with a dummy score, which the merge
ignores) yields the same list: merged segments are separated by gaps
strictly greater than merge_gap and each passed the minimum-duration filter,
so no further merging or dropping occurs. -/
theorem claim_C6_merge_idempotent (D : YAMNetDetector)
    (frames : List (ℚ × ℚ × ℚ)) (hg : 0 ≤ D.merge_gap)
    (hwf : ∀ f ∈ frames, f.1 ≤ f.2.1) :
    _merge_frames_to_segments D
      ((_merge_frames_to_segments D frames).map (fun se => (se.1, se.2, (0 : ℚ))))
      = _merge_frames_to_segments D frames := by
  obtain ⟨hchain, _⟩ := merged_chain_wf D frames hg hwf
  have hpass : ∀ sg ∈ _merge_frames_to_segments D frames,
      D.min_segment_duration ≤ sg.2 - sg.1 := by
    intro sg hsg
    cases frames with
    | nil => simp [_merge_frames_to_segments] at hsg
    | cons f rest =>
      obtain ⟨s, e, w⟩ := f
      have hsg' : sg ∈ (merge_scan D.merge_gap s e rest).filter
          (fun se => decide (D.min_segment_duration ≤ se.2 - se.1)) := hsg
      have := List.of_mem_filter hsg'
      simpa using this
  cases hM : _merge_frames_to_segments D frames with
  | nil => simp [_merge_frames_to_segments]
  | cons m0 rest =>
    rw [List.map_cons]
    show (merge_scan D.merge_gap m0.1 m0.2
      (rest.map (fun se => (se.1, se.2, (0 : ℚ))))).filter
        (fun se => decide (D.min_segment_duration ≤ se.2 - se.1)) = m0 :: rest
    rw [merge_scan_reconstruct D.merge_gap rest m0.1 m0.2 (by
      have := hM ▸ hchain
      simpa using this)]
    have hself : (m0 :: rest).filter
        (fun se : ℚ × ℚ => decide (D.min_segment_duration ≤ se.2 - se.1))
        = m0 :: rest := by
      rw [List.filter_eq_self]
      intro a ha
      simpa using hpass a (hM ▸ ha)
    simpa using hself

/-- Witness for C6: a concrete detector (merge_gap 2 ≥ 0) and three
well-formed frames merging to [(0, 4), (10, 14)], on which re-merging is the
identity. -/
theorem claim_C6_merge_idempotent_witness :
    _merge_frames_to_segments cxDetector
      [(0, 1, mkRat 1 2), (2, 4, mkRat 1 2), (10, 14, mkRat 1 2)]
      = [(0, 4), (10, 14)] ∧
    _merge_frames_to_segments cxDetector
      ((_merge_frames_to_segments cxDetector
        [(0, 1, mkRat 1 2), (2, 4, mkRat 1 2), (10, 14, mkRat 1 2)]).map
          (fun se => (se.1, se.2, (0 : ℚ))))
      = _merge_frames_to_segments cxDetector
          [(0, 1, mkRat 1 2), (2, 4, mkRat 1 2), (10, 14, mkRat 1 2)] :=
  ⟨by with_unfolding_all decide,
   claim_C6_merge_idempotent cxDetector
     [(0, 1, mkRat 1 2), (2, 4, mkRat 1 2), (10, 14, mkRat 1 2)]
     (by with_unfolding_all decide) (by with_unfolding_all decide)⟩

/-! ## Properties of the per-probe stitch step -/

theorem update_last_eq {α : Type} (f : α → α) :
    ∀ (l : List α) (last : α), l.getLast? = some last →
    update_last f l = l.dropLast ++ [f last] := by
  intro l
  induction l with
  | nil => intro last h; simp at h
  | cons a t ih =>
    intro last h
    cases t with
    | nil =>
      simp only [List.getLast?_singleton, Option.some_inj] at h
      rw [h]
      rfl
    | cons b u =>
      rw [cons_getLast?_of_ne_nil a (b :: u) (by simp)] at h
      show a :: update_last f (b :: u) = (a :: b :: u).dropLast ++ [f last]
      rw [ih last h, cons_dropLast_of_ne_nil a (b :: u) (by simp)]
      rfl

/-- C1, counterexample to the claim as stated: the probe's track and the
immediately preceding confirmed segment's track both have acrid = None —
the same track identifier — yet the code appends a second segment instead
of extending, because the Python condition requires the acrid to be truthy
(if confirmed_segments and acrid and acrid == prev_acrid). -/
theorem claim_C1_stitch_step_counterexample :
    trackNoAcrid.acrid = cxSegNoAcrid.music.acrid ∧
    stitchStep [cxSegNoAcrid] 8 20 (IdResult.matched trackNoAcrid)
      = [cxSegNoAcrid, ⟨8, 20, 12, trackNoAcrid⟩] ∧
    (stitchStep [cxSegNoAcrid] 8 20 (IdResult.matched trackNoAcrid)).length = 2 := by
  refine ⟨rfl, ?_, ?_⟩ <;> with_unfolding_all decide

/-- C1 (amended): the per-probe update rule of identify_with_yamnet. If the
verdict is not a match (a miss or an error verdict), the confirmed list is
unchanged. If it is a match whose acrid is truthy (neither null nor the
empty string) and equal to the acrid of the immediately preceding confirmed
segment, that segment's end is set to this probe's (rounded) end and its
duration recomputed from its stored start, and no new segment is appended.
On any other match — including one whose acrid is null or empty even when it
equals the previous segment's — a new segment
(round2 probeStart, round2 probeEnd, rounded duration, track) is appended. -/
theorem stitchStep_matched_eq (segs : List ConfirmedSegment) (p q : ℚ) (m : Music) :
    stitchStep segs p q (IdResult.matched m)
      = if (!segs.isEmpty && acridTruthy m.acrid
            && decide (m.acrid = prevAcrid segs)) = true then
          update_last (fun sg =>
            { sg with stop := round2 q, duration := round2 (q - sg.start) }) segs
        else segs ++ [⟨round2 p, round2 q, round2 (q - p), m⟩] := rfl

theorem claim_C1_stitch_step (segs : List ConfirmedSegment) (p q : ℚ)
    (m : Music) (msg : String) :
    (stitchStep segs p q IdResult.noMatch = segs) ∧
    (stitchStep segs p q (IdResult.error msg) = segs) ∧
    (∀ last, segs.getLast? = some last →
      acridTruthy m.acrid = true → m.acrid = last.music.acrid →
      stitchStep segs p q (IdResult.matched m)
        = segs.dropLast
          ++ [⟨last.start, round2 q, round2 (q - last.start), last.music⟩]) ∧
    ((segs = [] ∨ acridTruthy m.acrid = false ∨ m.acrid ≠ prevAcrid segs) →
      stitchStep segs p q (IdResult.matched m)
        = segs ++ [⟨round2 p, round2 q, round2 (q - p), m⟩]) := by
  refine ⟨rfl, rfl, ?_, ?_⟩
  · intro last hlast htruthy heq
    have hne : segs ≠ [] := by
      intro h
      rw [h] at hlast
      simp at hlast
    have hprev : prevAcrid segs = last.music.acrid := by
      unfold prevAcrid
      rw [hlast]
      rfl
    rw [stitchStep_matched_eq]
    rw [if_pos (by
      simp only [Bool.and_eq_true, Bool.not_eq_true', decide_eq_true_eq]
      refine ⟨⟨?_, htruthy⟩, hprev ▸ heq⟩
      simpa [List.isEmpty_iff] using hne)]
    rw [update_last_eq _ segs last hlast]
  · intro hcase
    rw [stitchStep_matched_eq]
    rw [if_neg (by
      intro hcond
      simp only [Bool.and_eq_true, Bool.not_eq_true', decide_eq_true_eq] at hcond
      rcases hcase with hnil | hfalse | hneq
      · rw [hnil] at hcond
        simp at hcond
      · rw [hcond.1.2] at hfalse
        simp at hfalse
      · exact hneq hcond.2)]

/-- Witness for C1's extension case: a probe matching trackA right after a
confirmed segment for trackA extends that segment to (0, 20) in place. -/
theorem claim_C1_stitch_step_witness :
    stitchStep [⟨0, 12, 12, trackA⟩] 8 20 (IdResult.matched trackA)
      = ([⟨0, 12, 12, trackA⟩] : List ConfirmedSegment).dropLast
        ++ [⟨(⟨0, 12, 12, trackA⟩ : ConfirmedSegment).start, round2 20,
             round2 (20 - (⟨0, 12, 12, trackA⟩ : ConfirmedSegment).start), trackA⟩] ∧
    stitchStep [⟨0, 12, 12, trackA⟩] 8 20 (IdResult.matched trackA)
      = [⟨0, 20, 20, trackA⟩] :=
  ⟨(claim_C1_stitch_step [⟨0, 12, 12, trackA⟩] 8 20 trackA "x").2.2.1
      ⟨0, 12, 12, trackA⟩ rfl (by with_unfolding_all decide) rfl,
   by with_unfolding_all decide⟩

/-! ## Error handling and the copyrighted flag -/

set_option maxRecDepth 1000000 in
/-- C8, counterexample to the claim as stated: a run in which the oracle
returns a protocol-error verdict (unexpected response shape) on every probe.
The candidate list is nonempty, so probes were issued and every one of them
received the error verdict, yet the run result has copyrighted = some false
(not null) and no run-level error string. -/
theorem claim_C8_protocol_error_counterexample :
    get_music_segments cxDetector cxScores (fun _ _ => []) = [(0, mkRat 1999 100)] ∧
    (identify_with_yamnet (mkRat 1 10) 3 cxNames cxScores (fun _ _ => [])
      cxErrOracle).copyrighted = some false ∧
    (identify_with_yamnet (mkRat 1 10) 3 cxNames cxScores (fun _ _ => [])
      cxErrOracle).error = none := by
  refine ⟨?_, ?_, ?_⟩ <;> with_unfolding_all decide

/-- C8 (amended): a protocol-error verdict on a probe is swallowed: the
falsy copyrighted value makes the stitcher treat the probe as a miss, so the
confirmed-segment list is unchanged at that probe, and the run completes
normally — the result carries error = none and a non-null copyrighted flag
computed from the confirmed segments, not copyrighted = null with the
protocol error surfaced. -/
theorem claim_C8_protocol_error_swallowed :
    (∀ (segs : List ConfirmedSegment) (p q : ℚ) (msg : String),
      stitchStep segs p q (IdResult.error msg) = segs) ∧
    (∀ (ct msd : ℚ) (cn : List String) (fs : List (List ℚ))
      (sig : ℚ → ℚ → List ℚ) (oracle : ℚ → ℚ → IdResult),
      (identify_with_yamnet ct msd cn fs sig oracle).error = none ∧
      ∃ b, (identify_with_yamnet ct msd cn fs sig oracle).copyrighted = some b) := by
  constructor
  · intro segs p q msg
    rfl
  · intro ct msd cn fs sig oracle
    unfold identify_with_yamnet
    dsimp only
    split
    · exact ⟨rfl, false, rfl⟩
    · exact ⟨rfl, _, rfl⟩

/-- C9: for both pipelines the returned copyrighted flag is true exactly when
the returned segments list is nonempty, and a fallback timeline run whose
oracle matches no window returns copyrighted = some false with no segments
and no error. -/
theorem claim_C9_copyrighted_iff_segments :
    (∀ (ct msd : ℚ) (cn : List String) (fs : List (List ℚ))
      (sig : ℚ → ℚ → List ℚ) (oracle : ℚ → ℚ → IdResult),
      ((identify_with_yamnet ct msd cn fs sig oracle).copyrighted = some true ↔
        (identify_with_yamnet ct msd cn fs sig oracle).segments ≠ [])) ∧
    (∀ (oracle : ℚ → ℚ → IdResult) (total chunk overlap : ℚ),
      ((identify_with_timeline oracle total chunk overlap).copyrighted = some true ↔
        (identify_with_timeline oracle total chunk overlap).segments ≠ [])) ∧
    (∀ (oracle : ℚ → ℚ → IdResult) (total chunk overlap : ℚ),
      (∀ (s e : ℚ) (m : Music), oracle s e ≠ IdResult.matched m) →
      identify_with_timeline oracle total chunk overlap
        = { copyrighted := some false, segments := [], error := none }) := by
  refine ⟨?_, ?_, ?_⟩
  · intro ct msd cn fs sig oracle
    unfold identify_with_yamnet
    dsimp only
    split
    · simp
    · simp [List.length_pos]
  · intro oracle total chunk overlap
    unfold identify_with_timeline
    dsimp only
    simp [List.length_pos]
  · intro oracle total chunk overlap hno
    have hscan : ∀ (fuel : ℕ) (cur : ℚ),
        timeline_scan oracle total chunk (chunk - overlap) fuel cur = [] := by
      intro fuel
      induction fuel with
      | zero => intro cur; rfl
      | succ fuel ih =>
        intro cur
        unfold timeline_scan
        split
        · rename_i hcur
          cases horacle : oracle cur (cur + chunk) with
          | matched m => exact absurd horacle (hno cur (cur + chunk) m)
          | noMatch => simpa using ih (cur + (chunk - overlap))
          | error msg => simpa using ih (cur + (chunk - overlap))
        · rfl
    unfold identify_with_timeline
    dsimp only
    rw [hscan]
    rfl

/-- Witness for C9's no-hit round trip: a 25-second recording chunked with
the default 10-second windows and 2-second overlap under an oracle that
never matches yields copyrighted = false and no segments. -/
theorem claim_C9_copyrighted_iff_segments_witness :
    identify_with_timeline (fun _ _ => IdResult.noMatch) 25 10 2
      = { copyrighted := some false, segments := [], error := none } :=
  claim_C9_copyrighted_iff_segments.2.2 (fun _ _ => IdResult.noMatch) 25 10 2
    (fun _ _ _ h => IdResult.noConfusion h)

/-! ## The candidate segments of a run are chained and well formed -/

theorem block_props (s e : ℚ) (bs : List ℚ) (hse : s ≤ e) :
    ((split_segment_at_boundaries s e bs).map
        (fun fe => (round2 fe.1, round2 fe.2))) ≠ [] ∧
    (((split_segment_at_boundaries s e bs).map
        (fun fe => (round2 fe.1, round2 fe.2))).head?).map Prod.fst
      = some (round2 s) ∧
    (((split_segment_at_boundaries s e bs).map
        (fun fe => (round2 fe.1, round2 fe.2))).getLast?).map Prod.snd
      = some (round2 e) ∧
    ((split_segment_at_boundaries s e bs).map
        (fun fe => (round2 fe.1, round2 fe.2))).Chain' (fun a b => a.2 ≤ b.1) ∧
    (∀ sg ∈ (split_segment_at_boundaries s e bs).map
        (fun fe => (round2 fe.1, round2 fe.2)), sg.1 ≤ sg.2) := by
  obtain ⟨hne, hhead, hlast, hchain, hwf, _, _, _⟩ := split_segment_props s e bs hse
  refine ⟨by simpa using hne, ?_, ?_, ?_, ?_⟩
  · rw [List.head?_map]
    cases hh : (split_segment_at_boundaries s e bs).head? with
    | none => rw [hh] at hhead; simp at hhead
    | some fe =>
      rw [hh] at hhead
      simp at hhead ⊢
      rw [hhead]
  · rw [List.getLast?_map]
    cases hh : (split_segment_at_boundaries s e bs).getLast? with
    | none => rw [hh] at hlast; simp at hlast
    | some fe =>
      rw [hh] at hlast
      simp at hlast ⊢
      rw [hlast]
  · rw [List.chain'_map]
    apply List.Chain'.imp _ hchain
    intro a b hab
    simp only
    rw [hab]
  · intro sg hsg
    obtain ⟨fe, hfe, rfl⟩ := List.mem_map.mp hsg
    exact round2_mono (hwf fe hfe)

theorem cand_lower_bound : ∀ (rest : List (ℚ × ℚ)) (c : ℚ × ℚ),
    (c :: rest).Chain' (fun a b => a.2 ≤ b.1) → (∀ x ∈ c :: rest, x.1 ≤ x.2) →
    ∀ c' ∈ rest, c.2 ≤ c'.1 := by
  intro rest
  induction rest with
  | nil => intro c _ _ c' hc'; simp at hc'
  | cons d t ih =>
    intro c hch hwf c' hc'
    have hcd : c.2 ≤ d.1 := (List.chain'_cons.mp hch).1
    rcases List.mem_cons.mp hc' with rfl | ht
    · exact hcd
    · have hd : d.1 ≤ d.2 := hwf d (by simp)
      have := ih d (List.chain'_cons.mp hch).2
        (fun x hx => hwf x (List.mem_cons_of_mem c hx)) c' ht
      linarith

theorem blocks_flatMap_props (sig : ℚ → ℚ → List ℚ) :
    ∀ (coarse : List (ℚ × ℚ)),
    coarse.Chain' (fun a b => a.2 < b.1) → (∀ c ∈ coarse, c.1 ≤ c.2) →
    (coarse.flatMap (fun se =>
        (split_segment_at_boundaries se.1 se.2
          (find_boundaries_in_segment se.1 se.2 (sig se.1 se.2) (mkRat 3 10) 5)).map
          (fun fe => (round2 fe.1, round2 fe.2)))).Chain' (fun a b => a.2 ≤ b.1) ∧
    (∀ w ∈ coarse.flatMap (fun se =>
        (split_segment_at_boundaries se.1 se.2
          (find_boundaries_in_segment se.1 se.2 (sig se.1 se.2) (mkRat 3 10) 5)).map
          (fun fe => (round2 fe.1, round2 fe.2))), w.1 ≤ w.2) ∧
    (∀ c0, coarse.head? = some c0 →
      ((coarse.flatMap (fun se =>
        (split_segment_at_boundaries se.1 se.2
          (find_boundaries_in_segment se.1 se.2 (sig se.1 se.2) (mkRat 3 10) 5)).map
          (fun fe => (round2 fe.1, round2 fe.2)))).head?).map Prod.fst
        = some (round2 c0.1)) := by
  intro coarse
  induction coarse with
  | nil => intro _ _; refine ⟨by simp, by simp, ?_⟩; intro c0 h; simp at h
  | cons c rest ih =>
    intro hch hwf
    have hc : c.1 ≤ c.2 := hwf c (by simp)
    obtain ⟨hbne, hbhead, hblast, hbchain, hbwf⟩ :=
      block_props c.1 c.2
        (find_boundaries_in_segment c.1 c.2 (sig c.1 c.2) (mkRat 3 10) 5) hc
    obtain ⟨ihch, ihwf, ihhead⟩ := ih ((List.chain'_cons'.mp hch).2)
      (fun x hx => hwf x (List.mem_cons_of_mem c hx))
    rw [List.flatMap_cons]
    refine ⟨?_, ?_, ?_⟩
    · rw [List.chain'_append]
      refine ⟨hbchain, ihch, ?_⟩
      intro x hx y hy
      have hx2 : x.2 = round2 c.2 := by
        cases hgl : (((split_segment_at_boundaries c.1 c.2
            (find_boundaries_in_segment c.1 c.2 (sig c.1 c.2) (mkRat 3 10) 5)).map
            (fun fe => (round2 fe.1, round2 fe.2)))).getLast? with
        | none => rw [hgl] at hblast; simp at hblast
        | some z =>
          rw [hgl] at hblast hx
          simp at hblast hx
          rw [← hx]
          exact hblast
      cases rest with
      | nil => simp at hy
      | cons d t =>
        have hd : (d :: t).head? = some d := rfl
        have hhead := ihhead d hd
        cases hh : ((d :: t).flatMap (fun se =>
            (split_segment_at_boundaries se.1 se.2
              (find_boundaries_in_segment se.1 se.2 (sig se.1 se.2) (mkRat 3 10) 5)).map
              (fun fe => (round2 fe.1, round2 fe.2)))).head? with
        | none => rw [hh] at hhead; simp at hhead
        | some z =>
          rw [hh] at hhead hy
          simp at hhead hy
          have hy1 : y.1 = round2 d.1 := by rw [← hy]; exact hhead
          have hcd : c.2 < d.1 := (List.chain'_cons.mp hch).1
          rw [hx2, hy1]
          exact round2_mono (le_of_lt hcd)
    · intro w hw
      rcases List.mem_append.mp hw with hwb | hwr
      · exact hbwf w hwb
      · exact ihwf w hwr
    · intro c0 hc0
      have hcc : c = c0 := by simpa using hc0
      subst hcc
      cases hb : ((split_segment_at_boundaries c.1 c.2
          (find_boundaries_in_segment c.1 c.2 (sig c.1 c.2) (mkRat 3 10) 5)).map
          (fun fe => (round2 fe.1, round2 fe.2))) with
      | nil => exact absurd hb hbne
      | cons b0 bt =>
        rw [hb] at hbhead
        simp only [List.cons_append, List.head?_cons] at hbhead ⊢
        exact hbhead

theorem FRAME_DURATION_nonneg : 0 ≤ FRAME_DURATION := by
  with_unfolding_all decide

/-- Every candidate segment list produced by get_music_segments is chained
(each segment ends no later than the next one starts) and well formed. -/
theorem candidates_chain_wf (D : YAMNetDetector) (fs : List (List ℚ))
    (sig : ℚ → ℚ → List ℚ) (hg : 0 ≤ D.merge_gap) :
    (get_music_segments D fs sig).Chain' (fun a b => a.2 ≤ b.1) ∧
    ∀ c ∈ get_music_segments D fs sig, c.1 ≤ c.2 := by
  unfold get_music_segments
  dsimp only
  split
  · simp
  · split
    · simp
    · have hframes_wf : ∀ f ∈ detect_music_frames D fs, f.1 ≤ f.2.1 := by
        intro f hf
        obtain ⟨j, _, h1, h2, _, _⟩ := detect_frames_from_mem D fs 0 f hf
        rw [h1, h2]
        linarith [FRAME_DURATION_nonneg]
      obtain ⟨hmch, hmwf⟩ :=
        merged_chain_wf D (detect_music_frames D fs) hg hframes_wf
      have hmch' : (_merge_frames_to_segments D (detect_music_frames D fs)).Chain'
          (fun a b => a.2 < b.1) := by
        apply List.Chain'.imp _ hmch
        intro a b hab
        simp only at hab ⊢
        linarith
      obtain ⟨h1, h2, _⟩ := blocks_flatMap_props sig
        (_merge_frames_to_segments D (detect_music_frames D fs)) hmch' hmwf
      exact ⟨h1, h2⟩

/-! ## The probe windows of a run are chained -/

theorem chain'_map_range {α : Type} (R : α → α → Prop) :
    ∀ (n : ℕ) (f : ℕ → α), (∀ k : ℕ, R (f k) (f (k + 1))) →
    ((List.range n).map f).Chain' R := by
  intro n
  induction n with
  | zero => intro f _; simp
  | succ n ihn =>
    intro f hf
    rw [List.range_succ_eq_map, List.map_cons, List.map_map]
    rw [List.chain'_cons']
    constructor
    · intro y hy
      cases n with
      | zero => simp at hy
      | succ m =>
        rw [List.range_succ_eq_map, List.map_cons] at hy
        simp only [List.head?_cons, Option.mem_def, Option.some_inj] at hy
        rw [← hy]
        exact hf 0
    · exact ihn (f ∘ Nat.succ) (fun k => hf (k + 1))

theorem winsOf_props (s e : ℚ) :
    ((_get_probe_points s e 8).map (fun p => (p, min (p + 12) e))).Chain'
      WindowRel ∧
    ∀ w ∈ (_get_probe_points s e 8).map (fun p => (p, min (p + 12) e)),
      s ≤ w.1 ∧ w.1 < e - 2 ∧ w.1 < w.2 ∧ w.2 ≤ e := by
  obtain ⟨n, heq, hlt, _⟩ := _get_probe_points_spec s e 8 (by norm_num)
  rw [heq, List.map_map]
  constructor
  · apply chain'_map_range
    intro k
    constructor
    · simp only [Function.comp_apply]
      push_cast
      linarith
    · simp only [Function.comp_apply]
      apply min_le_min _ (le_refl e)
      push_cast
      linarith
  · intro w hw
    rw [List.mem_map] at hw
    obtain ⟨k, hk, rfl⟩ := hw
    have hkn : k < n := List.mem_range.mp hk
    have h1 := hlt k hkn
    have h2 : 0 ≤ (k : ℚ) * 8 :=
      mul_nonneg (by exact_mod_cast Nat.zero_le k) (by norm_num)
    simp only [Function.comp_apply]
    refine ⟨by linarith, h1, ?_, min_le_right _ _⟩
    apply lt_min
    · linarith
    · linarith

theorem mem_of_head?_eq {α : Type} {l : List α} {a : α}
    (h : l.head? = some a) : a ∈ l := by
  cases l with
  | nil => simp at h
  | cons b t =>
    simp only [List.head?_cons, Option.some_inj] at h
    rw [← h]
    simp

theorem mem_of_getLast?_eq {α : Type} {l : List α} {a : α}
    (h : l.getLast? = some a) : a ∈ l := by
  induction l with
  | nil => simp at h
  | cons b t ih =>
    cases t with
    | nil =>
      simp only [List.getLast?_singleton, Option.some_inj] at h
      rw [← h]
      simp
    | cons c u =>
      rw [cons_getLast?_of_ne_nil b (c :: u) (by simp)] at h
      exact List.mem_cons_of_mem b (ih h)

/-- The probe windows of a run over chained well-formed candidate segments
are themselves chained by WindowRel, and every window sits inside its
candidate segment with more than 2 seconds of tail. -/
theorem runWindows_props :
    ∀ (cands : List (ℚ × ℚ)),
    cands.Chain' (fun a b => a.2 ≤ b.1) → (∀ c ∈ cands, c.1 ≤ c.2) →
    (runWindows cands).Chain' WindowRel ∧
    ∀ w ∈ runWindows cands, ∃ c ∈ cands,
      c.1 ≤ w.1 ∧ w.1 < c.2 - 2 ∧ w.1 < w.2 ∧ w.2 ≤ c.2 := by
  intro cands
  induction cands with
  | nil => intro _ _; refine ⟨by simp [runWindows], by simp [runWindows]⟩
  | cons c rest ih =>
    intro hch hwf
    obtain ⟨ihch, ihmem⟩ := ih ((List.chain'_cons'.mp hch).2)
      (fun x hx => hwf x (List.mem_cons_of_mem c hx))
    obtain ⟨wch, wmem⟩ := winsOf_props c.1 c.2
    have hrw : runWindows (c :: rest)
        = (_get_probe_points c.1 c.2 8).map (fun p => (p, min (p + 12) c.2))
          ++ runWindows rest := by
      unfold runWindows
      rw [List.flatMap_cons]
    rw [hrw]
    constructor
    · rw [List.chain'_append]
      refine ⟨wch, ihch, ?_⟩
      intro x hx y hy
      have hxmem := wmem x (mem_of_getLast?_eq hx)
      have hymem := ihmem y (mem_of_head?_eq hy)
      obtain ⟨c', hc'rest, hc'1, hc'2, hc'3, hc'4⟩ := hymem
      have hcc' : c.2 ≤ c'.1 := cand_lower_bound rest c hch hwf c' hc'rest
      constructor
      · have := hxmem.2.1
        linarith [hc'1]
      · have hxe := hxmem.2.2.2
        have hy12 := hc'3
        linarith [hc'1]
    · intro w hw
      rcases List.mem_append.mp hw with hwb | hwr
      · exact ⟨c, by simp, wmem w hwb⟩
      · obtain ⟨c', hc', hp⟩ := ihmem w hwr
        exact ⟨c', List.mem_cons_of_mem c hc', hp⟩

/-! ## The stitcher invariant -/

theorem preserves_refl (A : List ConfirmedSegment) : Preserves A A := by
  refine ⟨le_refl _, ?_⟩
  intro j hA hB
  exact ⟨rfl, rfl, le_refl _⟩

theorem preserves_trans {A B C : List ConfirmedSegment}
    (h1 : Preserves A B) (h2 : Preserves B C) : Preserves A C := by
  obtain ⟨hl1, hg1⟩ := h1
  obtain ⟨hl2, hg2⟩ := h2
  refine ⟨le_trans hl1 hl2, ?_⟩
  intro j hA hC
  have hB : j < B.length := lt_of_lt_of_le hA hl1
  obtain ⟨e1, e2, e3⟩ := hg1 j hA hB
  obtain ⟨e4, e5, e6⟩ := hg2 j hB hC
  exact ⟨e4.trans e1, e5.trans e2, le_trans e3 e6⟩

theorem getElem_of_getLast?_eq {α : Type} {l : List α} {a : α}
    (hl : l.getLast? = some a) (h : l.length - 1 < l.length) :
    l.get ⟨l.length - 1, h⟩ = a := by
  have hne : l ≠ [] := by
    intro he
    rw [he] at hl
    simp at hl
  have h1 : l.getLast hne = a := by
    rw [List.getLast?_eq_getLast l hne] at hl
    exact Option.some_inj.mp hl
  rw [← h1, List.get_eq_getElem]
  exact (List.getLast_eq_getElem l hne).symm

theorem exists_getLast?_of_ne_nil {α : Type} {l : List α} (h : l ≠ []) :
    ∃ a, l.getLast? = some a := by
  cases l with
  | nil => exact absurd rfl h
  | cons b t =>
    cases hgl : (b :: t).getLast? with
    | none =>
      exfalso
      rw [List.getLast?_eq_getLast (b :: t) (by simp)] at hgl
      simp at hgl
    | some a => exact ⟨a, rfl⟩

theorem dropLast_append_last_eq {α : Type} {l : List α} {a : α}
    (h : l.getLast? = some a) : l.dropLast ++ [a] = l := by
  have hne : l ≠ [] := by
    intro hl
    rw [hl] at h
    simp at h
  have h2 : l.getLast hne = a := by
    rw [List.getLast?_eq_getLast l hne] at h
    exact Option.some_inj.mp h
  rw [← h2]
  exact List.dropLast_append_getLast hne

theorem stitch_step_inv (segs : List ConfirmedSegment) (w w' : ℚ × ℚ)
    (r : IdResult) (hinv : SegsInv segs w) (hrel : WindowRel w w') :
    SegsInv (stitchStep segs w'.1 w'.2 r) w' ∧
    Preserves segs (stitchStep segs w'.1 w'.2 r) := by
  obtain ⟨hpw, hbounds⟩ := hinv
  obtain ⟨hr1, hr2⟩ := hrel
  have hw1 : round2 w.1 ≤ round2 w'.1 := round2_mono (by linarith)
  have hw2 : round2 w.2 ≤ round2 w'.2 := round2_mono hr2
  have hw1lt : round2 w.1 < round2 w'.1 := by
    have h1 := round2_le w.1
    have h2 := le_round2 w'.1
    linarith
  have hkeep : SegsInv segs w' :=
    ⟨hpw, fun sg hsg => ⟨le_trans (hbounds sg hsg).1 hw1,
      le_trans (hbounds sg hsg).2 hw2⟩⟩
  cases r with
  | noMatch => exact ⟨hkeep, preserves_refl segs⟩
  | error msg => exact ⟨hkeep, preserves_refl segs⟩
  | matched m =>
    rw [stitchStep_matched_eq]
    split
    · rename_i hcond
      simp only [Bool.and_eq_true, Bool.not_eq_true'] at hcond
      have hne : segs ≠ [] := by
        intro hl
        rw [hl] at hcond
        simp at hcond
      obtain ⟨last, hlast⟩ := exists_getLast?_of_ne_nil hne
      have hlastmem : last ∈ segs := mem_of_getLast?_eq hlast
      rw [update_last_eq _ segs last hlast]
      have hmapeq :
          (segs.dropLast ++ [({ last with stop := round2 w'.2, duration := round2 (w'.2 - last.start) } : ConfirmedSegment)]).map (fun sg : ConfirmedSegment => sg.start)
          = segs.map (fun sg : ConfirmedSegment => sg.start) := by
        rw [List.map_append]
        have h1 : ([({ last with stop := round2 w'.2, duration := round2 (w'.2 - last.start) } : ConfirmedSegment)]).map (fun sg : ConfirmedSegment => sg.start)
            = [last].map (fun sg : ConfirmedSegment => sg.start) := rfl
        rw [h1, ← List.map_append, dropLast_append_last_eq hlast]
      constructor
      · constructor
        · rw [← List.pairwise_map (f := fun sg : ConfirmedSegment => sg.start)
            (R := fun a b => a < b)]
          rw [hmapeq]
          rw [List.pairwise_map]
          exact hpw
        · intro sg hsg
          rcases List.mem_append.mp hsg with hdl | hnew
          · have : sg ∈ segs := (List.dropLast_sublist segs).subset hdl
            exact ⟨le_trans (hbounds sg this).1 hw1,
              le_trans (hbounds sg this).2 hw2⟩
          · rcases List.mem_singleton.mp hnew with rfl
            refine ⟨le_trans (hbounds last hlastmem).1 hw1, le_refl _⟩
      · have hlen : (segs.dropLast ++ [({ last with stop := round2 w'.2, duration := round2 (w'.2 - last.start) } : ConfirmedSegment)]).length
            = segs.length := by
          rw [List.length_append, List.length_dropLast]
          have : 1 ≤ segs.length := by
            cases segs with
            | nil => exact absurd rfl hne
            | cons a t => simp
          simp
          omega
        refine ⟨by rw [hlen], ?_⟩
        intro j hA hB
        rw [List.get_eq_getElem, List.get_eq_getElem]
        by_cases hj : j < segs.length - 1
        · have hjd : j < segs.dropLast.length := by
            rw [List.length_dropLast]; exact hj
          rw [List.getElem_append_left hjd]
          rw [List.getElem_dropLast]
          exact ⟨rfl, rfl, le_refl _⟩
        · have hj' : j = segs.length - 1 := by omega
          have hjd : segs.dropLast.length ≤ j := by
            rw [List.length_dropLast]; omega
          rw [List.getElem_append_right hjd]
          have hidx : j - segs.dropLast.length = 0 := by
            rw [List.length_dropLast]; omega
          have hgetlast : segs[j] = last := by
            subst hj'
            have := getElem_of_getLast?_eq hlast (show segs.length - 1 < segs.length by omega)
            rw [List.get_eq_getElem] at this
            exact this
          refine ⟨?_, ?_, ?_⟩
          · simp only [List.getElem_singleton]
            rw [hgetlast]
          · simp only [List.getElem_singleton]
            rw [hgetlast]
          · simp only [List.getElem_singleton]
            rw [hgetlast]
            exact le_trans (hbounds last hlastmem).2 hw2
    · constructor
      · constructor
        · rw [List.pairwise_append]
          refine ⟨hpw, by simp, ?_⟩
          intro a ha b hb
          rcases List.mem_singleton.mp hb with rfl
          show a.start < round2 w'.1
          exact lt_of_le_of_lt (hbounds a ha).1 hw1lt
        · intro sg hsg
          rcases List.mem_append.mp hsg with hold | hnew
          · exact ⟨le_trans (hbounds sg hold).1 hw1,
              le_trans (hbounds sg hold).2 hw2⟩
          · rcases List.mem_singleton.mp hnew with rfl
            exact ⟨le_refl _, le_refl _⟩
      · refine ⟨by rw [List.length_append]; omega, ?_⟩
        intro j hA hB
        rw [List.get_eq_getElem, List.get_eq_getElem]
        rw [List.getElem_append_left hA]
        exact ⟨rfl, rfl, le_refl _⟩

theorem stitch_fold_inv (oracle : ℚ → ℚ → IdResult) :
    ∀ (ws : List (ℚ × ℚ)) (segs : List ConfirmedSegment) (w0 : ℚ × ℚ),
    SegsInv segs w0 → (w0 :: ws).Chain' WindowRel →
    SegsInv (stitchFold oracle segs ws) (lastD w0 ws) ∧
    Preserves segs (stitchFold oracle segs ws) := by
  intro ws
  induction ws with
  | nil => intro segs w0 hinv _; exact ⟨hinv, preserves_refl segs⟩
  | cons w ws' ih =>
    intro segs w0 hinv hch
    have hrel : WindowRel w0 w := (List.chain'_cons.mp hch).1
    have hch' : (w :: ws').Chain' WindowRel := (List.chain'_cons.mp hch).2
    obtain ⟨hinv', hpres⟩ := stitch_step_inv segs w0 w (oracle w.1 w.2) hinv hrel
    obtain ⟨hinvf, hpresf⟩ :=
      ih (stitchStep segs w.1 w.2 (oracle w.1 w.2)) w hinv' hch'
    exact ⟨hinvf, preserves_trans hpres hpresf⟩

theorem chain_lastD {R : ℚ × ℚ → ℚ × ℚ → Prop} :
    ∀ (l1 l2 : List (ℚ × ℚ)) (w0 : ℚ × ℚ),
    (w0 :: (l1 ++ l2)).Chain' R → ((lastD w0 l1) :: l2).Chain' R := by
  intro l1
  induction l1 with
  | nil => intro l2 w0 h; exact h
  | cons a t ih =>
    intro l2 w0 h
    exact ih l2 a (List.chain'_cons.mp h).2

theorem chain'_take {α : Type} {R : α → α → Prop} :
    ∀ (k : ℕ) (l : List α), l.Chain' R → (l.take k).Chain' R := by
  intro k
  induction k with
  | zero => intro l _; simp
  | succ k ih =>
    intro l hch
    cases l with
    | nil => simp
    | cons a t =>
      rw [List.take_succ_cons]
      rw [List.chain'_cons']
      constructor
      · intro y hy
        have hyt : t.head? = some y := by
          cases t with
          | nil => simp at hy
          | cons b u =>
            cases k with
            | zero => simp at hy
            | succ k2 =>
              have hyb : b = y := by simpa using hy
              show some b = some y
              exact congrArg some hyb
        exact (List.chain'_cons'.mp hch).1 y hyt
      · exact ih t (List.chain'_cons'.mp hch).2

set_option maxRecDepth 1000000 in
/-- C5, counterexample to the claim as stated: a run whose single fine
segment is (0, 19.99) and whose oracle reports trackA on the probe window
(0, 12) and trackB on the overlapping probe window (8, 19.99) produces the
confirmed segments (0, 12) and (8, 19.99): ordered by start, but
overlapping — the second starts at 8, before the first ends at 12. -/
theorem claim_C5_ordered_counterexample :
    ((identify_with_yamnet (mkRat 1 10) 3 cxNames cxScores (fun _ _ => [])
        cxOracle).segments).map (fun sg => (sg.start, sg.stop))
      = [(0, 12), (8, mkRat 1999 100)] ∧
    ¬ ((identify_with_yamnet (mkRat 1 10) 3 cxNames cxScores (fun _ _ => [])
        cxOracle).segments).Pairwise (fun a b => a.stop ≤ b.start) := by
  constructor <;> with_unfolding_all decide

/-- C5 (amended): for every run of identify_with_yamnet, the final segments
list is ordered by strictly increasing start. The pairwise non-overlap half
of the original claim is false: consecutive probe windows overlap (8-second
interval, 12-second window), so a track change between overlapping windows
yields overlapping confirmed segments. -/
theorem claim_C5_segments_ordered (ct msd : ℚ) (cn : List String)
    (fs : List (List ℚ)) (sig : ℚ → ℚ → List ℚ) (oracle : ℚ → ℚ → IdResult) :
    ((identify_with_yamnet ct msd cn fs sig oracle).segments).Pairwise
      (fun a b => a.start < b.start) := by
  unfold identify_with_yamnet
  dsimp only
  split
  · simp
  · obtain ⟨hch, hwf⟩ := candidates_chain_wf
      { class_names := cn, confidence_threshold := ct,
        background_music_threshold := mkRat 5 100,
        min_segment_duration := msd, merge_gap := 2 } fs sig (by norm_num)
    obtain ⟨hwch, _⟩ := runWindows_props _ hch hwf
    cases hws : runWindows (get_music_segments
      { class_names := cn, confidence_threshold := ct,
        background_music_threshold := mkRat 5 100,
        min_segment_duration := msd, merge_gap := 2 } fs sig) with
    | nil => simp [stitchFold]
    | cons w1 ws' =>
      rw [hws] at hwch
      have hch0 : ((w1.1 - 3, w1.2) :: (w1 :: ws')).Chain' WindowRel := by
        rw [List.chain'_cons]
        exact ⟨⟨by simp only; linarith, le_refl _⟩, hwch⟩
      have hinv0 : SegsInv [] (w1.1 - 3, w1.2) := by
        constructor
        · simp
        · intro sg hsg
          simp at hsg
      obtain ⟨⟨hpw, _⟩, _⟩ :=
        stitch_fold_inv oracle (w1 :: ws') [] (w1.1 - 3, w1.2) hinv0 hch0
      exact hpw

/-- C10: implicit frame property of the stitcher. Along a run of
identify_with_yamnet, the confirmed-segment list only ever grows at the end:
comparing the state after the first k probe windows with the final segments
of the run, every already-present segment keeps its start and its music
unchanged, and its end never decreases (extensions only move ends forward). -/
theorem claim_C10_append_only (ct msd : ℚ) (cn : List String)
    (fs : List (List ℚ)) (sig : ℚ → ℚ → List ℚ) (oracle : ℚ → ℚ → IdResult)
    (k : ℕ) :
    Preserves
      (stitchFold oracle []
        ((runWindows (get_music_segments
          { class_names := cn, confidence_threshold := ct,
            background_music_threshold := mkRat 5 100,
            min_segment_duration := msd, merge_gap := 2 } fs sig)).take k))
      ((identify_with_yamnet ct msd cn fs sig oracle).segments) := by
  have hseg : (identify_with_yamnet ct msd cn fs sig oracle).segments
      = stitchFold oracle [] (runWindows (get_music_segments
          { class_names := cn, confidence_threshold := ct,
            background_music_threshold := mkRat 5 100,
            min_segment_duration := msd, merge_gap := 2 } fs sig)) := by
    unfold identify_with_yamnet
    dsimp only
    split
    · rename_i hnil
      rw [hnil]
      rfl
    · rfl
  rw [hseg]
  have hsplit : stitchFold oracle [] (runWindows (get_music_segments
      { class_names := cn, confidence_threshold := ct,
        background_music_threshold := mkRat 5 100,
        min_segment_duration := msd, merge_gap := 2 } fs sig))
      = stitchFold oracle
          (stitchFold oracle [] ((runWindows (get_music_segments
            { class_names := cn, confidence_threshold := ct,
              background_music_threshold := mkRat 5 100,
              min_segment_duration := msd, merge_gap := 2 } fs sig)).take k))
          ((runWindows (get_music_segments
            { class_names := cn, confidence_threshold := ct,
              background_music_threshold := mkRat 5 100,
              min_segment_duration := msd, merge_gap := 2 } fs sig)).drop k) := by
    unfold stitchFold
    rw [← List.foldl_append, List.take_append_drop]
  rw [hsplit]
  obtain ⟨hch, hwf⟩ := candidates_chain_wf
    { class_names := cn, confidence_threshold := ct,
      background_music_threshold := mkRat 5 100,
      min_segment_duration := msd, merge_gap := 2 } fs sig (by norm_num)
  obtain ⟨hwch, _⟩ := runWindows_props _ hch hwf
  cases hws : runWindows (get_music_segments
    { class_names := cn, confidence_threshold := ct,
      background_music_threshold := mkRat 5 100,
      min_segment_duration := msd, merge_gap := 2 } fs sig) with
  | nil =>
    simp only [List.take_nil, List.drop_nil]
    exact preserves_refl _
  | cons w1 ws' =>
    rw [hws] at hwch
    have hch0 : ((w1.1 - 3, w1.2) :: (w1 :: ws')).Chain' WindowRel := by
      rw [List.chain'_cons]
      exact ⟨⟨by simp only; linarith, le_refl _⟩, hwch⟩
    have hinv0 : SegsInv [] (w1.1 - 3, w1.2) := by
      constructor
      · simp
      · intro sg hsg
        simp at hsg
    have hchtake : ((w1.1 - 3, w1.2) :: (w1 :: ws').take k).Chain' WindowRel := by
      have heq : (w1.1 - 3, w1.2) :: (w1 :: ws').take k
          = ((w1.1 - 3, w1.2) :: (w1 :: ws')).take (k + 1) := by
        rw [List.take_succ_cons]
      rw [heq]
      exact chain'_take (k + 1) _ hch0
    obtain ⟨hinvA, _⟩ :=
      stitch_fold_inv oracle ((w1 :: ws').take k) [] (w1.1 - 3, w1.2) hinv0 hchtake
    have hchdrop : ((lastD (w1.1 - 3, w1.2) ((w1 :: ws').take k))
        :: (w1 :: ws').drop k).Chain' WindowRel := by
      apply chain_lastD
      rw [List.take_append_drop]
      exact hch0
    obtain ⟨_, hpres⟩ :=
      stitch_fold_inv oracle ((w1 :: ws').drop k)
        (stitchFold oracle [] ((w1 :: ws').take k))
        (lastD (w1.1 - 3, w1.2) ((w1 :: ws').take k)) hinvA hchdrop
    exact hpres

/-- Witness for C10 at the concrete counterexample run, comparing the state
after the first probe window with the final segments. -/
theorem claim_C10_append_only_witness :
    Preserves
      (stitchFold cxOracle []
        ((runWindows (get_music_segments cxDetector cxScores (fun _ _ => []))).take 1))
      ((identify_with_yamnet (mkRat 1 10) 3 cxNames cxScores (fun _ _ => [])
        cxOracle).segments) :=
  claim_C10_append_only (mkRat 1 10) 3 cxNames cxScores (fun _ _ => []) cxOracle 1
